import Mathlib

set_option maxHeartbeats 2000000
set_option maxRecDepth 8000

/-
Verification of the indexed min/max reduction and the softmax kernel family
of the XPU operator library (ReduceDimIndex.cpp and the softmax source file).

Shallow embedding conventions:
* Device scalars (scalar_t / accscalar_t) are modelled by the type Flt below:
  finite values are exact rationals, NaN and the two infinities are explicit
  constructors, and the arithmetic operations follow the IEEE special-value
  rules (rounding of finite results is idealized away, which no claim here
  depends on).
* The transcendental functions exp and log of comm/Numerics.h are not part of
  src; kernels take them as parameters E and L, and theorems state the IEEE
  facts they need about them as explicit hypotheses.
* A kernel is embedded by its per-slice denotation: the value each output
  position of one reduced slice receives, with the iteration structure of the
  source (worker / chunk / vector-lane decomposition, alignment offsets, and
  range guards) kept explicit.
-/

namespace IpexXpuVerify

/-- Modelled from the spec: the device floating-point scalar (scalar_t and
accscalar_t of comm/Numerics.h, which is not under src).  Finite values are
idealized as rationals; NaN and both infinities are explicit constructors so
that the NaN-dominance comparator logic and the IEEE special-value arithmetic
used by the kernels are captured exactly. -/
inductive Flt where
  | nan : Flt
  | inf : Flt
  | ninf : Flt
  | fin : ℚ → Flt
deriving DecidableEq

/-- Modelled from the spec: Numerics.isnan. -/
def Flt.isNan : Flt → Bool
  | .nan => true
  | _ => false

/-- Modelled from the spec: the IEEE equality test written a == b in the
comparators; NaN compares unequal to everything, including itself. -/
def Flt.beq : Flt → Flt → Bool
  | .nan, _ => false
  | _, .nan => false
  | .inf, .inf => true
  | .inf, _ => false
  | .ninf, .ninf => true
  | .ninf, _ => false
  | .fin _, .inf => false
  | .fin _, .ninf => false
  | .fin q, .fin r => q == r

/-- Modelled from the spec: the IEEE strict ordering written a < b; any
comparison involving NaN is false. -/
def Flt.blt : Flt → Flt → Bool
  | .nan, _ => false
  | _, .nan => false
  | .ninf, .ninf => false
  | .ninf, _ => true
  | .inf, _ => false
  | .fin _, .ninf => false
  | .fin _, .inf => true
  | .fin q, .fin r => decide (q < r)

/-- IEEE negation. -/
def Flt.neg : Flt → Flt
  | .nan => .nan
  | .inf => .ninf
  | .ninf => .inf
  | .fin q => .fin (-q)

/-- IEEE addition on the special values; finite addition is exact. -/
def Flt.add : Flt → Flt → Flt
  | .nan, _ => .nan
  | _, .nan => .nan
  | .inf, .ninf => .nan
  | .inf, _ => .inf
  | .ninf, .inf => .nan
  | .ninf, _ => .ninf
  | .fin _, .inf => .inf
  | .fin _, .ninf => .ninf
  | .fin q, .fin r => .fin (q + r)

/-- IEEE subtraction, as addition of the negation. -/
def Flt.sub (a b : Flt) : Flt := a.add b.neg

/-- IEEE multiplication; zero times an infinity is NaN. -/
def Flt.mul : Flt → Flt → Flt
  | .nan, _ => .nan
  | _, .nan => .nan
  | .inf, .inf => .inf
  | .inf, .ninf => .ninf
  | .ninf, .inf => .ninf
  | .ninf, .ninf => .inf
  | .inf, .fin q => if q = 0 then .nan else if 0 < q then .inf else .ninf
  | .fin q, .inf => if q = 0 then .nan else if 0 < q then .inf else .ninf
  | .ninf, .fin q => if q = 0 then .nan else if 0 < q then .ninf else .inf
  | .fin q, .ninf => if q = 0 then .nan else if 0 < q then .ninf else .inf
  | .fin q, .fin r => .fin (q * r)

/-- IEEE division; a nonzero finite value divided by zero gives a signed
infinity (the sign of zero is not modelled: zero is treated as positive zero,
matching the exactly-zero accumulator sums the claims are about). -/
def Flt.div : Flt → Flt → Flt
  | .nan, _ => .nan
  | _, .nan => .nan
  | .inf, .inf => .nan
  | .inf, .ninf => .nan
  | .ninf, .inf => .nan
  | .ninf, .ninf => .nan
  | .fin _, .inf => .fin 0
  | .fin _, .ninf => .fin 0
  | .inf, .fin q => if 0 ≤ q then .inf else .ninf
  | .ninf, .fin q => if 0 ≤ q then .ninf else .inf
  | .fin q, .fin r =>
      if r = 0 then (if q = 0 then .nan else if 0 < q then .inf else .ninf)
      else .fin (q / r)

/-- Modelled from the spec: Numerics.max, the larger of two values computed by
the a-less-than-b comparison (the second operand is kept on a strict increase,
otherwise the first). -/
def Flt.fmax (a b : Flt) : Flt := if a.blt b then b else a

lemma Flt.beq_eq_true_iff (a b : Flt) : a.beq b = true ↔ a.isNan = false ∧ a = b := by
  cases a <;> cases b <;> simp [Flt.beq, Flt.isNan]

lemma Flt.beq_refl (a : Flt) (h : a.isNan = false) : a.beq a = true := by
  cases a <;> simp_all [Flt.beq, Flt.isNan]

lemma Flt.beq_nan_right (a : Flt) : a.beq Flt.nan = false := by
  cases a <;> rfl

lemma Flt.isNan_iff (a : Flt) : a.isNan = true ↔ a = Flt.nan := by
  cases a <;> simp [Flt.isNan]

/-!  Indexed min/max reduction (ReduceDimIndex.cpp).

The comparator-parameterized fold of MinMaxReductionOps is embedded with
indices as naturals.  The two comparators share the shape of the source:
NaN dominance first, then an index tie-break at equal values, then the strict
value comparison. -/

/-- The common comparator shape of LessOrNan / GreaterOrNan, parameterized by
the strict value ordering used in the last position. -/
def cmpOrNan (ltb : Flt → Flt → Bool) (a b : Flt) (idx_a idx_b : ℕ) : Bool :=
  if a.isNan then
    (if b.isNan then decide (idx_a < idx_b) else true)
  else if a.beq b then decide (idx_a < idx_b) else ltb a b

/-- LessOrNan comparator of ReduceDimIndex.cpp: NaN dominates; equal values
resolve to the lower index; otherwise the numerically smaller value wins. -/
def LessOrNan (a b : Flt) (idx_a idx_b : ℕ) : Bool :=
  cmpOrNan Flt.blt a b idx_a idx_b

/-- The flipped strict order, written a > b in the source. -/
def fgt (a b : Flt) : Bool := Flt.blt b a

/-- GreaterOrNan comparator of ReduceDimIndex.cpp. -/
def GreaterOrNan (a b : Flt) (idx_a idx_b : ℕ) : Bool :=
  cmpOrNan fgt a b idx_a idx_b

/-- MinMaxReductionOps.reduce: keep the accumulator exactly when the comparator
accepts it against the incoming (value, index) pair. -/
def MMreduce (comp : Flt → Flt → ℕ → ℕ → Bool) (arg : Flt × ℕ) (val : Flt)
    (idx : ℕ) : Flt × ℕ :=
  if comp arg.1 val arg.2 idx then arg else (val, idx)

/-- MinMaxReductionOps.combine: merge two partial accumulators with the same
comparator. -/
def MMcombine (comp : Flt → Flt → ℕ → ℕ → Bool) (a b : Flt × ℕ) : Flt × ℕ :=
  if comp a.1 b.1 a.2 b.2 then a else b

/-- MinMaxReductionOps.translate_idx. -/
def translate_idx (a : Flt × ℕ) (base_idx : ℕ) : Flt × ℕ :=
  (a.1, a.2 + base_idx)

/-- Sequential fold of reduce over the elements of one slice, carrying the
running element index, which is how the reduction kernel consumes a slice. -/
def foldIdx (comp : Flt → Flt → ℕ → ℕ → Bool) :
    Flt × ℕ → List Flt → ℕ → Flt × ℕ
  | a, [], _ => a
  | a, x :: xs, i => foldIdx comp (MMreduce comp a x i) xs (i + 1)

/-- Modelled from the spec: Numerics.upper_bound, the largest value of the
element type, used to seed the indexed-min reduction. -/
def upper_bound : Flt := Flt.inf

/-- Modelled from the spec: Numerics.lower_bound, the smallest value of the
element type, used to seed the indexed-max reduction. -/
def lower_bound : Flt := Flt.ninf

/-- The seeded indexed-min reduction of one slice, as launched by _min_out. -/
def runMinIdx (xs : List Flt) : Flt × ℕ :=
  foldIdx LessOrNan (upper_bound, 0) xs 0

/-- The seeded indexed-max reduction of one slice, as launched by _max_out. -/
def runMaxIdx (xs : List Flt) : Flt × ℕ :=
  foldIdx GreaterOrNan (lower_bound, 0) xs 0

/-- Specification predicate: position i holds the first NaN of the slice. -/
def NanIdxAt (l : List Flt) (i : ℕ) : Prop :=
  i < l.length ∧ l.getD i Flt.nan = Flt.nan ∧
    ∀ j, j < i → l.getD j Flt.nan ≠ Flt.nan

/-- Non-strict comparison derived from a strict Boolean order. -/
def fltLe (ltb : Flt → Flt → Bool) (v y : Flt) : Prop :=
  ltb v y = true ∨ v = y

/-- Specification predicate: v is the extreme value of the slice under the
strict order ltb and i is the first index attaining it. -/
def ExtremeAt (ltb : Flt → Flt → Bool) (l : List Flt) (v : Flt) (i : ℕ) : Prop :=
  i < l.length ∧ l.getD i Flt.nan = v ∧ (∀ y ∈ l, fltLe ltb v y) ∧
    ∀ j, j < i → l.getD j Flt.nan ≠ v

/-- The accumulator invariant of the indexed reduction: over a processed
nonempty prefix, the accumulator is the first NaN if the prefix has one, and
otherwise the extreme value with its first attaining index. -/
def GoodAcc (ltb : Flt → Flt → Bool) (l : List Flt) (a : Flt × ℕ) : Prop :=
  (l.any Flt.isNan = true → a.1 = Flt.nan ∧ NanIdxAt l a.2) ∧
  (l.any Flt.isNan = false → a.1.isNan = false ∧ ExtremeAt ltb l a.1 a.2)

/-- The properties of a strict value order that the comparator analysis
needs; both the less-than and the greater-than instantiation satisfy them. -/
structure LtbSpec (ltb : Flt → Flt → Bool) : Prop where
  nan_left : ∀ b, ltb Flt.nan b = false
  nan_right : ∀ a, ltb a Flt.nan = false
  irrefl : ∀ a, ltb a a = false
  total : ∀ a b, a.isNan = false → b.isNan = false → a ≠ b →
    ltb a b = true ∨ ltb b a = true
  trans : ∀ a b c, ltb a b = true → ltb b c = true → ltb a c = true

lemma blt_ltbSpec : LtbSpec Flt.blt := by
  constructor
  · intro b; cases b <;> rfl
  · intro a; cases a <;> rfl
  · intro a; cases a <;> simp [Flt.blt]
  · intro a b ha hb hne
    cases a <;> cases b <;> simp_all [Flt.blt, Flt.isNan]
  · intro a b c hab hbc
    cases a <;> cases b <;> cases c <;> simp_all [Flt.blt]
    exact lt_trans hab hbc

lemma fgt_ltbSpec : LtbSpec fgt := by
  obtain ⟨h1, h2, h3, h4, h5⟩ := blt_ltbSpec
  constructor
  · intro b; exact h2 b
  · intro a; exact h1 a
  · intro a; exact h3 a
  · intro a b ha hb hne
    show Flt.blt b a = true ∨ Flt.blt a b = true
    exact h4 b a hb ha (Ne.symm hne)
  · intro a b c hab hbc
    show Flt.blt c a = true
    exact h5 c b a hbc hab

lemma MMreduce_keep {comp : Flt → Flt → ℕ → ℕ → Bool} {a : Flt × ℕ} {x : Flt}
    {i : ℕ} (h : comp a.1 x a.2 i = true) : MMreduce comp a x i = a := by
  rw [MMreduce, h]
  simp

lemma MMreduce_repl {comp : Flt → Flt → ℕ → ℕ → Bool} {a : Flt × ℕ} {x : Flt}
    {i : ℕ} (h : comp a.1 x a.2 i = false) : MMreduce comp a x i = (x, i) := by
  rw [MMreduce, h]
  simp

lemma mem_of_getD {l : List Flt} {j : ℕ} (h : j < l.length) :
    l.getD j Flt.nan ∈ l := by
  rw [List.getD_eq_getElem l Flt.nan h]
  exact List.getElem_mem h

lemma any_isNan_false_entry {l : List Flt} (h : l.any Flt.isNan = false)
    {y : Flt} (hy : y ∈ l) : y.isNan = false := by
  by_contra hc
  have : y.isNan = true := by
    cases hx : y.isNan
    · exact absurd hx hc
    · rfl
  have := List.any_eq_true.mpr ⟨y, hy, this⟩
  rw [h] at this
  exact Bool.false_ne_true this

lemma any_append_false {l : List Flt} {x : Flt} (hl : l.any Flt.isNan = false)
    (hx : x.isNan = false) : (l ++ [x]).any Flt.isNan = false := by
  simp [List.any_append, hl, hx]

lemma any_append_of_left {l : List Flt} {x : Flt} (hl : l.any Flt.isNan = true) :
    (l ++ [x]).any Flt.isNan = true := by
  simp [List.any_append, hl]

lemma getD_concat_self (l : List Flt) (x : Flt) :
    (l ++ [x]).getD l.length Flt.nan = x := by
  rw [List.getD_append_right _ _ _ _ (le_refl _)]
  simp

lemma GoodAcc.step {ltb : Flt → Flt → Bool} (hs : LtbSpec ltb)
    (l : List Flt) (a : Flt × ℕ) (x : Flt) (ha : GoodAcc ltb l a) :
    GoodAcc ltb (l ++ [x]) (MMreduce (cmpOrNan ltb) a x l.length) := by
  obtain ⟨hnan, hclean⟩ := ha
  cases hany : l.any Flt.isNan with
  | true =>
    -- the prefix already has a NaN: the accumulator is the first NaN and the
    -- comparator always keeps it
    obtain ⟨hv, hi, hget, hfirst⟩ := hnan hany
    have hcomp : cmpOrNan ltb a.1 x a.2 l.length = true := by
      rw [cmpOrNan, hv]
      cases x <;> simp [Flt.isNan, hi]
    rw [MMreduce_keep hcomp]
    constructor
    · intro _
      refine ⟨hv, Nat.lt_of_lt_of_le hi (by simp), ?_, ?_⟩
      · rw [List.getD_append _ _ _ _ hi]; exact hget
      · intro j hj
        rw [List.getD_append _ _ _ _ (Nat.lt_of_lt_of_le hj (Nat.le_of_lt hi))]
        exact hfirst j hj
    · intro hfalse
      rw [any_append_of_left hany] at hfalse
      exact absurd hfalse (by simp)
  | false =>
    obtain ⟨hvnan, hi, hget, hle, hfirst⟩ := hclean hany
    cases hx : x.isNan with
    | true =>
      -- first NaN arrives: the comparator rejects the accumulator
      have hxn : x = Flt.nan := (Flt.isNan_iff x).mp hx
      have hcomp : cmpOrNan ltb a.1 x a.2 l.length = false := by
        rw [cmpOrNan, hxn]
        simp [hvnan, Flt.beq_nan_right, hs.nan_right]
      rw [MMreduce_repl hcomp]
      constructor
      · intro _
        refine ⟨hxn, by simp, ?_, ?_⟩
        · rw [getD_concat_self]
          exact hxn
        · intro j hj
          rw [List.getD_append _ _ _ _ hj]
          intro hc
          have := any_isNan_false_entry hany (mem_of_getD hj)
          rw [hc] at this
          simp [Flt.isNan] at this
      · intro hfalse
        rw [List.any_append] at hfalse
        simp [hxn, Flt.isNan] at hfalse
    | false =>
      have hanyx : (l ++ [x]).any Flt.isNan = false := any_append_false hany hx
      by_cases hbeq : a.1.beq x = true
      · -- equal values: the lower (existing) index is kept
        obtain ⟨_, hax⟩ := (Flt.beq_eq_true_iff a.1 x).mp hbeq
        have hcomp : cmpOrNan ltb a.1 x a.2 l.length = true := by
          rw [cmpOrNan]
          simp [hvnan, hbeq, hi]
        rw [MMreduce_keep hcomp]
        refine ⟨fun hc => by rw [hanyx] at hc; exact absurd hc (by simp),
          fun _ => ⟨hvnan, Nat.lt_of_lt_of_le hi (by simp), ?_, ?_, ?_⟩⟩
        · rw [List.getD_append _ _ _ _ hi]; exact hget
        · intro y hy
          rcases List.mem_append.mp hy with h | h
          · exact hle y h
          · have : y = x := by simpa using h
            rw [this, ← hax]
            exact Or.inr rfl
        · intro j hj
          rw [List.getD_append _ _ _ _ (Nat.lt_of_lt_of_le hj (Nat.le_of_lt hi))]
          exact hfirst j hj
      · have hne : a.1 ≠ x := by
          intro hc
          exact hbeq (by rw [hc]; exact Flt.beq_refl x hx)
        by_cases hlt : ltb a.1 x = true
        · -- the accumulator stays the strict extreme
          have hcomp : cmpOrNan ltb a.1 x a.2 l.length = true := by
            rw [cmpOrNan]
            have hbeq2 : a.1.beq x = false := by
              cases h2 : a.1.beq x
              · rfl
              · exact absurd h2 hbeq
            simp [hvnan, hbeq2, hlt]
          rw [MMreduce_keep hcomp]
          refine ⟨fun hc => by rw [hanyx] at hc; exact absurd hc (by simp),
            fun _ => ⟨hvnan, Nat.lt_of_lt_of_le hi (by simp), ?_, ?_, ?_⟩⟩
          · rw [List.getD_append _ _ _ _ hi]; exact hget
          · intro y hy
            rcases List.mem_append.mp hy with h | h
            · exact hle y h
            · have : y = x := by simpa using h
              rw [this]
              exact Or.inl hlt
          · intro j hj
            rw [List.getD_append _ _ _ _ (Nat.lt_of_lt_of_le hj (Nat.le_of_lt hi))]
            exact hfirst j hj
        · -- the new element strictly beats the accumulator and replaces it
          have hxlt : ltb x a.1 = true := by
            rcases hs.total a.1 x hvnan hx hne with h | h
            · exact absurd h hlt
            · exact h
          have hltf : ltb a.1 x = false := by
            cases h2 : ltb a.1 x
            · rfl
            · exact absurd h2 hlt
          have hbeq2 : a.1.beq x = false := by
            cases h2 : a.1.beq x
            · rfl
            · exact absurd h2 hbeq
          have hcomp : cmpOrNan ltb a.1 x a.2 l.length = false := by
            rw [cmpOrNan]
            simp [hvnan, hbeq2, hltf]
          rw [MMreduce_repl hcomp]
          refine ⟨fun hc => by rw [hanyx] at hc; exact absurd hc (by simp),
            fun _ => ⟨hx, by simp, ?_, ?_, ?_⟩⟩
          · exact getD_concat_self l x
          · intro y hy
            rcases List.mem_append.mp hy with h | h
            · rcases hle y h with h2 | h2
              · exact Or.inl (hs.trans x a.1 y hxlt h2)
              · rw [← h2]
                exact Or.inl hxlt
            · have : y = x := by simpa using h
              rw [this]
              exact Or.inr rfl
          · intro j hj
            rw [List.getD_append _ _ _ _ hj]
            intro hc
            have hmem := mem_of_getD hj
            rw [hc] at hmem
            rcases hle x hmem with h2 | h2
            · exact absurd h2 hlt
            · exact hne h2

lemma GoodAcc.fold {ltb : Flt → Flt → Bool} (hs : LtbSpec ltb) :
    ∀ (rest l : List Flt) (a : Flt × ℕ), GoodAcc ltb l a →
      GoodAcc ltb (l ++ rest) (foldIdx (cmpOrNan ltb) a rest l.length) := by
  intro rest
  induction rest with
  | nil => intro l a ha; simpa [foldIdx] using ha
  | cons x xs ih =>
    intro l a ha
    rw [foldIdx]
    have hstep := GoodAcc.step hs l a x ha
    have := ih (l ++ [x]) (MMreduce (cmpOrNan ltb) a x l.length) hstep
    rw [List.length_append] at this
    simpa [List.append_assoc] using this

lemma seed_first {ltb : Flt → Flt → Bool} (ub : Flt)
    (hub : ub.isNan = false) (hmax : ∀ x, ltb ub x = false) (x : Flt) :
    MMreduce (cmpOrNan ltb) (ub, 0) x 0 = (x, 0) := by
  rw [MMreduce, cmpOrNan]
  simp only [hub]
  by_cases hb : Flt.beq ub x = true <;> simp [hb, hmax]

lemma GoodAcc.single {ltb : Flt → Flt → Bool} (x : Flt) :
    GoodAcc ltb [x] (x, 0) := by
  constructor
  · intro h
    have hx : x.isNan = true := by simpa using h
    have hxn : x = Flt.nan := by cases x <;> simp_all [Flt.isNan]
    exact ⟨hxn, by simp, by simp [hxn], fun j hj => absurd hj (by omega)⟩
  · intro h
    have hx : x.isNan = false := by simpa using h
    refine ⟨hx, by simp, by simp, ?_, fun j hj => absurd hj (by omega)⟩
    intro y hy
    have : y = x := by simpa using hy
    rw [this]
    exact Or.inr rfl

lemma LessOrNan_eq : LessOrNan = cmpOrNan Flt.blt := rfl

lemma GreaterOrNan_eq : GreaterOrNan = cmpOrNan fgt := rfl

lemma runMinIdx_good (xs : List Flt) (hne : xs ≠ []) :
    GoodAcc Flt.blt xs (runMinIdx xs) := by
  obtain ⟨x, rest, rfl⟩ := List.exists_cons_of_ne_nil hne
  rw [runMinIdx, LessOrNan_eq, foldIdx,
    seed_first upper_bound (by rfl) (fun y => by cases y <;> rfl)]
  have := GoodAcc.fold blt_ltbSpec rest [x] (x, 0) (GoodAcc.single x)
  simpa using this

lemma runMaxIdx_good (xs : List Flt) (hne : xs ≠ []) :
    GoodAcc fgt xs (runMaxIdx xs) := by
  obtain ⟨x, rest, rfl⟩ := List.exists_cons_of_ne_nil hne
  rw [runMaxIdx, GreaterOrNan_eq, foldIdx,
    seed_first lower_bound (by rfl) (fun y => by cases y <;> rfl)]
  have := GoodAcc.fold fgt_ltbSpec rest [x] (x, 0) (GoodAcc.single x)
  simpa using this

/-- C1: per reduced slice, the indexed-min (resp. indexed-max) reduction
returns the true minimum (resp. maximum) together with the smallest index
attaining it, and when the slice holds at least one NaN it returns NaN with
the smallest index among the NaN occurrences. -/
theorem indexed_min_max_slice_correct (xs : List Flt) (hne : xs ≠ []) :
    (xs.any Flt.isNan = true →
      (runMinIdx xs).1 = Flt.nan ∧ NanIdxAt xs (runMinIdx xs).2 ∧
      (runMaxIdx xs).1 = Flt.nan ∧ NanIdxAt xs (runMaxIdx xs).2) ∧
    (xs.any Flt.isNan = false →
      ExtremeAt Flt.blt xs (runMinIdx xs).1 (runMinIdx xs).2 ∧
      ExtremeAt fgt xs (runMaxIdx xs).1 (runMaxIdx xs).2) := by
  obtain ⟨hm1, hm2⟩ := runMinIdx_good xs hne
  obtain ⟨hx1, hx2⟩ := runMaxIdx_good xs hne
  constructor
  · intro h
    exact ⟨(hm1 h).1, (hm1 h).2, (hx1 h).1, (hx1 h).2⟩
  · intro h
    exact ⟨(hm2 h).2, (hx2 h).2⟩

/-- Witness for C1, at the slice of the spec example: indexed-max on
[3, 1, 3, 2] finds value 3 at first index 0, and indexed-min value 1 at
index 1. -/
theorem indexed_min_max_slice_correct_witness :
    (([Flt.fin 3, Flt.fin 1, Flt.fin 3, Flt.fin 2].any Flt.isNan = true →
      (runMinIdx [Flt.fin 3, Flt.fin 1, Flt.fin 3, Flt.fin 2]).1 = Flt.nan ∧
      NanIdxAt [Flt.fin 3, Flt.fin 1, Flt.fin 3, Flt.fin 2]
        (runMinIdx [Flt.fin 3, Flt.fin 1, Flt.fin 3, Flt.fin 2]).2 ∧
      (runMaxIdx [Flt.fin 3, Flt.fin 1, Flt.fin 3, Flt.fin 2]).1 = Flt.nan ∧
      NanIdxAt [Flt.fin 3, Flt.fin 1, Flt.fin 3, Flt.fin 2]
        (runMaxIdx [Flt.fin 3, Flt.fin 1, Flt.fin 3, Flt.fin 2]).2) ∧
    ([Flt.fin 3, Flt.fin 1, Flt.fin 3, Flt.fin 2].any Flt.isNan = false →
      ExtremeAt Flt.blt [Flt.fin 3, Flt.fin 1, Flt.fin 3, Flt.fin 2]
        (runMinIdx [Flt.fin 3, Flt.fin 1, Flt.fin 3, Flt.fin 2]).1
        (runMinIdx [Flt.fin 3, Flt.fin 1, Flt.fin 3, Flt.fin 2]).2 ∧
      ExtremeAt fgt [Flt.fin 3, Flt.fin 1, Flt.fin 3, Flt.fin 2]
        (runMaxIdx [Flt.fin 3, Flt.fin 1, Flt.fin 3, Flt.fin 2]).1
        (runMaxIdx [Flt.fin 3, Flt.fin 1, Flt.fin 3, Flt.fin 2]).2)) :=
  indexed_min_max_slice_correct [Flt.fin 3, Flt.fin 1, Flt.fin 3, Flt.fin 2]
    (by decide)

/-- C8 counterexample: combining the identity accumulator with a pair that
carries the identity value at a positive index does not return that pair; the
index tie-break keeps the seed index 0 instead. -/
theorem combine_identity_counterexample :
    MMcombine LessOrNan (upper_bound, 0) (upper_bound, 1) ≠ (upper_bound, 1) := by
  decide

/-- C8 (amended): the indexed-min reduction is seeded with
(upper bound, index 0) and indexed-max with (lower bound, index 0); combining
the identity with a pair p returns p whenever the value of p differs from the
identity value (when the values coincide and the index of p is positive the
combine keeps index 0 instead); and the seeded fold over a slice equals the
fold that starts from the first real element, so seeding never changes the
reduction result. -/
theorem seeded_fold_identity_behavior (p q : Flt × ℕ)
    (hp : p.1 ≠ upper_bound) (hq : q.1 ≠ lower_bound)
    (xs : List Flt) (x : Flt) (rest : List Flt) (hxs : xs = x :: rest) :
    MMcombine LessOrNan (upper_bound, 0) p = p ∧
    MMcombine GreaterOrNan (lower_bound, 0) q = q ∧
    runMinIdx xs = foldIdx LessOrNan (x, 0) rest 1 ∧
    runMaxIdx xs = foldIdx GreaterOrNan (x, 0) rest 1 := by
  refine ⟨?_, ?_, ?_, ?_⟩
  · obtain ⟨v, i⟩ := p
    have hv : v ≠ Flt.inf := hp
    rw [MMcombine]
    have : LessOrNan upper_bound v 0 i = false := by
      rw [LessOrNan, cmpOrNan, upper_bound]
      cases v <;> simp_all [Flt.isNan, Flt.beq, Flt.blt]
    rw [this]
    simp
  · obtain ⟨v, i⟩ := q
    have hv : v ≠ Flt.ninf := hq
    rw [MMcombine]
    have : GreaterOrNan lower_bound v 0 i = false := by
      rw [GreaterOrNan, cmpOrNan, lower_bound]
      cases v <;> simp_all [Flt.isNan, Flt.beq, fgt, Flt.blt]
    rw [this]
    simp
  · rw [hxs, runMinIdx, LessOrNan_eq, foldIdx,
      seed_first upper_bound (by rfl) (fun y => by cases y <;> rfl)]
  · rw [hxs, runMaxIdx, GreaterOrNan_eq, foldIdx,
      seed_first lower_bound (by rfl) (fun y => by cases y <;> rfl)]

/-- Witness for C8: the amended statement applied at concrete accumulator
pairs and the concrete slice [5, 7]. -/
theorem seeded_fold_identity_behavior_witness :
    MMcombine LessOrNan (upper_bound, 0) (Flt.fin 4, 3) = (Flt.fin 4, 3) ∧
    MMcombine GreaterOrNan (lower_bound, 0) (Flt.fin 4, 3) = (Flt.fin 4, 3) ∧
    runMinIdx [Flt.fin 5, Flt.fin 7] =
      foldIdx LessOrNan (Flt.fin 5, 0) [Flt.fin 7] 1 ∧
    runMaxIdx [Flt.fin 5, Flt.fin 7] =
      foldIdx GreaterOrNan (Flt.fin 5, 0) [Flt.fin 7] 1 :=
  seeded_fold_identity_behavior (Flt.fin 4, 3) (Flt.fin 4, 3)
    (by decide) (by decide) [Flt.fin 5, Flt.fin 7] (Flt.fin 5) [Flt.fin 7] rfl

/-!  The host-level dispatch of _min_out / _max_out (edge cases, claim C9). -/

/-- The action _min_out / _max_out takes before (or instead of) launching the
reduction kernel. -/
inductive ReduceDimAction where
  | resizeZeroNumel
  | complexError
  | trivialIndexZero
  | launchKernel
deriving DecidableEq

/-- Modelled from the spec: the framework helper
_dimreduce_return_trivial_no_ident takes the trivial shortcut exactly for a
single-element input. -/
def dimreduce_trivial (numel : ℕ) : Bool := numel == 1

/-- The branch structure of _min_out: an empty input is resized with no kernel
launch, a single-element input (after the complex-dtype check) writes index 0
with no kernel launch, and everything else launches the reduction kernel. -/
def min_out_dispatch (numel : ℕ) (isComplex : Bool) : ReduceDimAction :=
  if numel == 0 then .resizeZeroNumel
  else if dimreduce_trivial numel then
    (if isComplex then .complexError else .trivialIndexZero)
  else .launchKernel

/-- The branch structure of _max_out, identical to _min_out. -/
def max_out_dispatch (numel : ℕ) (isComplex : Bool) : ReduceDimAction :=
  if numel == 0 then .resizeZeroNumel
  else if dimreduce_trivial numel then
    (if isComplex then .complexError else .trivialIndexZero)
  else .launchKernel

/-- C9: an empty input resizes the outputs and launches no kernel; a
single-element non-complex input forces index 0 with no kernel launch; a
single-element complex input is rejected before any kernel launch; any larger
input reaches the kernel launch. -/
theorem min_max_edge_dispatch :
    (∀ c, min_out_dispatch 0 c = .resizeZeroNumel ∧
      max_out_dispatch 0 c = .resizeZeroNumel) ∧
    (min_out_dispatch 1 false = .trivialIndexZero ∧
      max_out_dispatch 1 false = .trivialIndexZero) ∧
    (min_out_dispatch 1 true = .complexError ∧
      max_out_dispatch 1 true = .complexError) ∧
    (∀ n c, min_out_dispatch (n + 2) c = .launchKernel ∧
      max_out_dispatch (n + 2) c = .launchKernel) := by
  refine ⟨fun c => ⟨rfl, rfl⟩, ⟨rfl, rfl⟩, ⟨rfl, rfl⟩, fun n c => ⟨?_, ?_⟩⟩ <;>
    simp [min_out_dispatch, max_out_dispatch, dimreduce_trivial]

/-!  Softmax forward dispatcher tier selection (claim C2). -/

/-- The three forward execution strategies of SpatialSoftMaxForward. -/
inductive FwdTier where
  | register
  | streaming
  | spatial
deriving DecidableEq

/-- The tier-selection structure of SpatialSoftMaxForward: with the reduced
axis innermost (inner size 1), the register-resident kernel is used when
32-bit indexing is possible and one work group covers the row
(max_group_size * INNER_LOOP at least dim_size), otherwise the streaming
reference kernel; any non-innermost axis goes to the spatial kernel. -/
def SpatialSoftMaxForward_tier (inner_size dim_size : ℕ) (can32 : Bool)
    (maxWG INNER_LOOP : ℕ) : FwdTier :=
  if inner_size = 1 then
    (if can32 && decide (dim_size ≤ maxWG * INNER_LOOP) then .register
     else .streaming)
  else .spatial

/-- C2: the dispatcher selects exactly one of the three strategies: the
register-resident kernel iff the axis is innermost, 32-bit indexing is
possible, and the group capacity covers the row; the streaming kernel iff the
axis is innermost but one of the two other conditions fails; the spatial
kernel iff the axis is not innermost. -/
theorem softmax_forward_tier_selection (inner_size dim_size : ℕ) (can32 : Bool)
    (maxWG INNER_LOOP : ℕ) (hinner : 1 ≤ inner_size) :
    (SpatialSoftMaxForward_tier inner_size dim_size can32 maxWG INNER_LOOP =
        .register ↔
      inner_size = 1 ∧ can32 = true ∧ dim_size ≤ maxWG * INNER_LOOP) ∧
    (SpatialSoftMaxForward_tier inner_size dim_size can32 maxWG INNER_LOOP =
        .streaming ↔
      inner_size = 1 ∧ ¬(can32 = true ∧ dim_size ≤ maxWG * INNER_LOOP)) ∧
    (SpatialSoftMaxForward_tier inner_size dim_size can32 maxWG INNER_LOOP =
        .spatial ↔ 1 < inner_size) := by
  by_cases hi : inner_size = 1
  · by_cases hc : can32 = true
    · by_cases hd : dim_size ≤ maxWG * INNER_LOOP
      · simp [SpatialSoftMaxForward_tier, hi, hc, hd]
      · simp [SpatialSoftMaxForward_tier, hi, hc, hd]
    · have hc2 : can32 = false := by
        cases can32
        · rfl
        · exact absurd rfl hc
      simp [SpatialSoftMaxForward_tier, hi, hc2]
  · have hlt : 1 < inner_size := lt_of_le_of_ne hinner (Ne.symm hi)
    simp [SpatialSoftMaxForward_tier, hi, hlt]

/-- Witness for C2 at a concrete shape: inner size 1, row of 8, capacity
1024 * 16, 32-bit indexing available selects the register tier. -/
theorem softmax_forward_tier_selection_witness :
    (1 ≤ 1 ∧
      (SpatialSoftMaxForward_tier 1 8 true 1024 16 = .register ↔
        1 = 1 ∧ true = true ∧ 8 ≤ 1024 * 16)) ∧
    SpatialSoftMaxForward_tier 1 8 true 1024 16 = .register :=
  ⟨⟨le_refl 1, (softmax_forward_tier_selection 1 8 true 1024 16 (le_refl 1)).1⟩,
    by decide⟩

/-!  Fused add+softmax shape gate (claim C6). -/

/-- shape_use_fused_path: identical size lists qualify; otherwise the other
operand must not have higher rank and every trailing dimension of the input,
aligned from the end, must be evenly divisible by the corresponding dimension
of the other operand. -/
def shape_use_fused_path (input_sizes other_sizes : List ℕ) : Bool :=
  if input_sizes = other_sizes then true
  else if input_sizes.length < other_sizes.length then false
  else (List.range other_sizes.length).all (fun i =>
    decide (input_sizes.getD (input_sizes.length - 1 - i) 1 %
      other_sizes.getD (other_sizes.length - 1 - i) 1 = 0))

/-- The two routes add_softmax can take. -/
inductive AddSoftmaxRoute where
  | fusedImplCall
  | unfusedFallback
deriving DecidableEq

/-- The entry dispatch of add_softmax: unsupported shapes, mismatched scalar
types, or an explicit dtype different from the input dtype fall back to the
unfused softmax(add(input, other, alpha)); otherwise the fused implementation
is invoked. -/
def add_softmax_route (input_sizes other_sizes : List ℕ)
    (typesEq dtypeGiven dtypeEqInput : Bool) : AddSoftmaxRoute :=
  if !shape_use_fused_path input_sizes other_sizes || !typesEq ||
      (dtypeGiven && !dtypeEqInput) then .unfusedFallback
  else .fusedImplCall

/-- C6: shape_use_fused_path is true exactly when the size lists are equal or
the other operand has rank at most the input rank with every trailing pair
divisible; and add_softmax reaches the fused implementation only when the
predicate holds and the scalar types agree, falling back to the unfused
softmax-of-add otherwise. -/
theorem shape_fused_path_characterization (a b : List ℕ)
    (hpos : ∀ j, j < b.length → 0 < b.getD j 1)
    (typesEq dtypeGiven dtypeEqInput : Bool) :
    (shape_use_fused_path a b = true ↔
      (a = b ∨ (b.length ≤ a.length ∧ ∀ i, i < b.length →
        b.getD (b.length - 1 - i) 1 ∣ a.getD (a.length - 1 - i) 1))) ∧
    (add_softmax_route a b typesEq dtypeGiven dtypeEqInput = .fusedImplCall →
      shape_use_fused_path a b = true ∧ typesEq = true) ∧
    (¬(shape_use_fused_path a b = true ∧ typesEq = true) →
      add_softmax_route a b typesEq dtypeGiven dtypeEqInput =
        .unfusedFallback) := by
  refine ⟨?_, ?_, ?_⟩
  · by_cases heq : a = b
    · simp [shape_use_fused_path, heq]
    · by_cases hlen : a.length < b.length
      · have : ¬ b.length ≤ a.length := by omega
        simp [shape_use_fused_path, heq, hlen, this]
      · rw [shape_use_fused_path, if_neg heq, if_neg hlen]
        rw [List.all_eq_true]
        constructor
        · intro h
          refine Or.inr ⟨by omega, fun i hi => ?_⟩
          have := h i (List.mem_range.mpr hi)
          rw [decide_eq_true_iff] at this
          exact Nat.dvd_iff_mod_eq_zero.mpr this
        · intro h i hi
          rcases h with h | ⟨_, h⟩
          · exact absurd h heq
          · rw [decide_eq_true_iff]
            exact Nat.dvd_iff_mod_eq_zero.mp (h i (List.mem_range.mp hi))
  · intro h
    rw [add_softmax_route] at h
    by_cases hsh : shape_use_fused_path a b = true
    · by_cases ht : typesEq = true
      · exact ⟨hsh, ht⟩
      · have : typesEq = false := by
          cases typesEq
          · rfl
          · exact absurd rfl ht
        rw [hsh, this] at h
        simp at h
    · have : shape_use_fused_path a b = false := by
        cases h2 : shape_use_fused_path a b
        · rfl
        · exact absurd h2 hsh
      rw [this] at h
      simp at h
  · intro h
    rw [add_softmax_route]
    by_cases hsh : shape_use_fused_path a b = true
    · have ht : typesEq = false := by
        cases h2 : typesEq
        · rfl
        · exact absurd ⟨hsh, h2⟩ h
      rw [hsh, ht]
      rfl
    · have : shape_use_fused_path a b = false := by
        cases h2 : shape_use_fused_path a b
        · rfl
        · exact absurd h2 hsh
      rw [this]
      rfl

/-- Witness for C6: input sizes [4, 6], other sizes [2, 3]; both trailing
dimensions divide, so the fused path qualifies. -/
theorem shape_fused_path_characterization_witness :
    ((shape_use_fused_path [4, 6] [2, 3] = true ↔
      ([4, 6] = [2, 3] ∨ (([2, 3] : List ℕ).length ≤ ([4, 6] : List ℕ).length ∧
        ∀ i, i < ([2, 3] : List ℕ).length →
          ([2, 3] : List ℕ).getD (([2, 3] : List ℕ).length - 1 - i) 1 ∣
            ([4, 6] : List ℕ).getD (([4, 6] : List ℕ).length - 1 - i) 1))) ∧
    (add_softmax_route [4, 6] [2, 3] true false false = .fusedImplCall →
      shape_use_fused_path [4, 6] [2, 3] = true ∧ true = true) ∧
    (¬(shape_use_fused_path [4, 6] [2, 3] = true ∧ true = true) →
      add_softmax_route [4, 6] [2, 3] true false false = .unfusedFallback)) ∧
    shape_use_fused_path [4, 6] [2, 3] = true :=
  ⟨shape_fused_path_characterization [4, 6] [2, 3]
      (by
        intro j hj
        have hj2 : j < 2 := by simpa using hj
        rcases j with _ | _ | j
        · decide
        · decide
        · omega) true false false,
    by decide⟩

/-!  Masked softmax argument validation (claim C10). -/

/-- Outcome of _masked_softmax_backward before any kernel launch. -/
inductive MaskedBwdResult where
  | earlyEmpty
  | errDim
  | errShape
  | errDtype
  | launch
deriving DecidableEq

/-- A zero-dimensional tensor is viewed as a one-element vector before the
shape checks. -/
def view1 (s : List ℕ) : List ℕ := if s.isEmpty then [1] else s

/-- Modelled from the spec: maybe_wrap_dim, wrapping a negative axis into the
valid range of a rank (a rank-0 tensor is treated as rank 1). -/
def maybe_wrap_dim (d : ℤ) (r : ℕ) : ℤ :=
  if d < 0 then d + (max r 1 : ℕ) else d

/-- The reduction axis _masked_softmax_backward uses: the wrapped explicit
axis when given, otherwise the last axis of the output. -/
def masked_bwd_dim (outSizes : List ℕ) (dimOpt : Option ℤ) : ℤ :=
  match dimOpt with
  | some d => maybe_wrap_dim d outSizes.length
  | none => (outSizes.length : ℤ) - 1

/-- The validation sequence of _masked_softmax_backward: a grad tensor with
zero elements returns the freshly allocated gradient before any check; then
the axis must be in range, the mask sizes must equal the grad sizes exactly,
and the mask dtype must be Bool, in that order, before the kernel dispatch. -/
def masked_softmax_backward_check (gradSizes outSizes maskSizes : List ℕ)
    (maskIsBool : Bool) (dimOpt : Option ℤ) : MaskedBwdResult :=
  if gradSizes.prod = 0 then .earlyEmpty
  else
    let dim := masked_bwd_dim outSizes dimOpt
    let grad := view1 gradSizes
    let mask := view1 maskSizes
    if ¬(0 ≤ dim ∧ dim < (grad.length : ℤ)) then .errDim
    else if grad ≠ mask then .errShape
    else if maskIsBool = false then .errDtype
    else .launch

/-- The acceptance predicate of the forward _masked_softmax: the mask must be
Bool, the mask type must be given as 0, 1 or 2, and the mask sizes must
either equal the input sizes or be one of the special broadcastable shapes
(BxT for mask type 1, TxT for mask type 0 on a 4-d input). -/
def masked_softmax_forward_accepts (inSizes maskSizes : List ℕ)
    (maskIsBool : Bool) (maskType : Option ℤ) : Bool :=
  maskIsBool &&
  (match maskType with
   | none => false
   | some mt =>
     (decide (mt = 0) || decide (mt = 1) || decide (mt = 2)) &&
     (decide (maskSizes = inSizes) ||
      (decide (mt = 1) && decide (inSizes.length = 4) &&
        decide (maskSizes.length = 2) &&
        decide (inSizes.getD 0 1 = maskSizes.getD 0 1) &&
        decide (inSizes.getD 2 1 = maskSizes.getD 1 1) &&
        decide (inSizes.getD 3 1 = maskSizes.getD 1 1)) ||
      (decide (mt = 0) && decide (inSizes.length = 4) &&
        decide (maskSizes.length = 2) &&
        decide (inSizes.getD 3 1 = maskSizes.getD 1 1) &&
        decide (inSizes.getD 2 1 = maskSizes.getD 0 1) &&
        decide (maskSizes.getD 0 1 = maskSizes.getD 1 1))))

/-- C10: masked-softmax backward launches its kernel only for a mask whose
sizes equal the grad sizes exactly and whose dtype is Bool (raising an error
otherwise); a grad with zero elements returns immediately, skipping every
mask check; and the forward, unlike the backward, also accepts the
broadcastable BxT key-padding mask whose sizes differ from the input sizes. -/
theorem masked_backward_validation (gradSizes outSizes maskSizes : List ℕ)
    (maskIsBool : Bool) (dimOpt : Option ℤ) (hnz : gradSizes.prod ≠ 0) :
    (masked_softmax_backward_check gradSizes outSizes maskSizes maskIsBool
        dimOpt = .launch ↔
      ((0 ≤ masked_bwd_dim outSizes dimOpt ∧
        masked_bwd_dim outSizes dimOpt < ((view1 gradSizes).length : ℤ)) ∧
        view1 gradSizes = view1 maskSizes ∧ maskIsBool = true)) ∧
    (∀ gs ms : List ℕ, ∀ mb : Bool, ∀ dopt : Option ℤ, gs.prod = 0 →
      masked_softmax_backward_check gs outSizes ms mb dopt = .earlyEmpty) ∧
    (∀ B H T : ℕ,
      masked_softmax_forward_accepts [B, H, T, T] [B, T] true (some 1) =
        true ∧ ([B, T] : List ℕ) ≠ [B, H, T, T]) := by
  refine ⟨?_, ?_, ?_⟩
  · rw [masked_softmax_backward_check, if_neg hnz]
    simp only []
    split_ifs with h1 h2 h3
    · exact ⟨fun h => absurd h (by decide), fun hr => absurd hr.2.1 h2⟩
    · refine ⟨fun h => absurd h (by decide), fun hr => ?_⟩
      rw [hr.2.2] at h3
      exact absurd h3 (by decide)
    · have heq : view1 gradSizes = view1 maskSizes := not_not.mp h2
      have hb : maskIsBool = true := by
        cases hmb : maskIsBool
        · rw [hmb] at h3
          exact absurd rfl h3
        · rfl
      exact ⟨fun _ => ⟨h1, heq, hb⟩, fun _ => rfl⟩
    · exact ⟨fun h => absurd h (by decide), fun hr => absurd hr.1 h1⟩
  · intro gs ms mb dopt hz
    rw [masked_softmax_backward_check, if_pos hz]
  · intro B H T
    constructor
    · simp [masked_softmax_forward_accepts]
    · intro h
      have := congrArg List.length h
      simp at this

/-- Witness for C10 at concrete sizes: grad [2, 3] with matching Bool mask
launches; the empty-grad early return and the BxT forward acceptance are
instantiated at [2, 4, 3, 3] with mask [2, 3]. -/
theorem masked_backward_validation_witness :
    ((masked_softmax_backward_check [2, 3] [2, 3] [2, 3] true none = .launch ↔
      ((0 ≤ masked_bwd_dim [2, 3] none ∧
        masked_bwd_dim [2, 3] none < ((view1 [2, 3]).length : ℤ)) ∧
        view1 [2, 3] = view1 [2, 3] ∧ true = true)) ∧
    (∀ gs ms : List ℕ, ∀ mb : Bool, ∀ dopt : Option ℤ, gs.prod = 0 →
      masked_softmax_backward_check gs [2, 3] ms mb dopt = .earlyEmpty) ∧
    (∀ B H T : ℕ,
      masked_softmax_forward_accepts [B, H, T, T] [B, T] true (some 1) =
        true ∧ ([B, T] : List ℕ) ≠ [B, H, T, T])) ∧
    masked_softmax_backward_check [2, 3] [2, 3] [2, 3] true none = .launch :=
  ⟨masked_backward_validation [2, 3] [2, 3] [2, 3] true none (by decide),
    by decide⟩

/-!  Work-group sizing for the register-resident fast path (claim C7). -/

/-- MIN_WG_NUM of the source. -/
def MIN_WG_NUM : ℕ := 32768

/-- The loop of get_wgroup_size that trades group count for rows per group:
while the halved group count still exceeds MIN_WG_NUM, the doubled local row
count still fits the work group, and the group count is even, halve the group
count and double the rows per group. -/
def rowLoop (maxWG lsc : ℕ) (g l : ℕ) : ℕ × ℕ :=
  if h : MIN_WG_NUM < g / 2 ∧ 2 * l * lsc ≤ maxWG ∧ g % 2 = 0 then
    rowLoop maxWG lsc (g / 2) (2 * l)
  else (g, l)
termination_by g
decreasing_by
  have h1 := h.1
  rw [MIN_WG_NUM] at h1
  omega

/-- The loop of get_wgroup_size that shrinks the reduce range while one more
halving still covers sub_group_num.  The source condition
sub_group_num less-or-equal range/2 is written equivalently as
2 * sub_group_num less-or-equal range; the extra 0 < range guard only rules
out the sub_group_num = 0 input on which the source loop would not
terminate (unreachable from the dispatchers, which always pass a positive
sub_group_num). -/
def rangeLoop (sgn : ℕ) (r : ℕ) : ℕ :=
  if h : 0 < r ∧ 2 * sgn ≤ r then rangeLoop sgn (r / 2) else r
termination_by r
decreasing_by
  have h1 := h.1
  omega

/-- The outputs of get_wgroup_size. -/
structure WgParams where
  sub_group_num : ℕ
  range : ℕ
  global_size_row : ℕ
  local_size_row : ℕ
  local_size_col : ℕ
deriving DecidableEq

/-- get_wgroup_size of the softmax source: the column width is the number of
subgroups covering ceil(dim_size / (NUM * vec)) work items, rounded up to a
multiple of SIMD and capped by the maximal work-group size; when a single
work item covers the whole row the column width collapses to 1 and SIMD rows
share one group.  (The range field is left unset by the source in the tiny
branch and is modelled as 0 there; no kernel reads it.) -/
def get_wgroup_size (SIMD vec NUM : ℕ) (dim_size outer_size maxWG : ℕ) :
    WgParams :=
  let local_size := min ((dim_size + NUM * vec - 1) / (NUM * vec)) maxWG
  let sub_group_num := (local_size + SIMD - 1) / SIMD
  let local_size_col := sub_group_num * SIMD
  if dim_size ≤ vec * NUM then
    { sub_group_num := sub_group_num, range := 0,
      global_size_row := (outer_size + SIMD - 1) / SIMD,
      local_size_row := SIMD, local_size_col := 1 }
  else
    let gl := rowLoop maxWG local_size_col outer_size 1
    { sub_group_num := sub_group_num, range := rangeLoop sub_group_num SIMD,
      global_size_row := gl.1, local_size_row := gl.2,
      local_size_col := local_size_col }

/-- The kernel launch configuration selected by the fast-path branch of
SpatialSoftMaxForward. -/
structure FwdCfg where
  vec_size : ℕ
  SIMD : ℕ
  outer_loop : ℕ
deriving DecidableEq

/-- The SIMD narrowing of the dispatchers: a hardware subgroup width of 32 is
narrowed to 16 when the row is shorter than 16 * INNER_LOOP. -/
def narrowSIMD (simdInit INNER_LOOP dim_size : ℕ) : ℕ :=
  if simdInit = 32 ∧ dim_size < 16 * INNER_LOOP then 16 else simdInit

/-- The vector-width / SIMD / outer-loop selection of the register-resident
branch of SpatialSoftMaxForward, keyed on pointer alignment and the
divisibility of dim_size by the maximal vector width. -/
def dispatch_forward_cfg (max_vec INNER_LOOP simdInit : ℕ) (ptrAligned : Bool)
    (dim_size : ℕ) : FwdCfg :=
  let simd := narrowSIMD simdInit INNER_LOOP dim_size
  if simd = 32 then
    if ptrAligned && decide (dim_size % max_vec = 0) then
      ⟨max_vec, 32, INNER_LOOP / max_vec⟩
    else ⟨1, 32, INNER_LOOP⟩
  else
    if ptrAligned && decide (dim_size % max_vec = 0) then
      if 4 ≤ max_vec ∧ dim_size ≤ 4 * simd then ⟨4, 16, 1⟩
      else if dim_size ≤ max_vec * simd then ⟨max_vec, 16, 1⟩
      else ⟨max_vec, 16, INNER_LOOP / max_vec * 2⟩
    else ⟨1, 16, INNER_LOOP * 2⟩

lemma ceil_div_lt_iff (m s k : ℕ) (hs : 0 < s) :
    k < (m + s - 1) / s ↔ k * s < m := by
  rw [Nat.lt_iff_add_one_le, Nat.le_div_iff_mul_le hs, Nat.succ_mul]
  have hgen : ∀ t : ℕ, t = k * s → (t + s ≤ m + s - 1 ↔ t < m) := by
    intro t _
    omega
  exact hgen (k * s) rfl

lemma le_ceil_mul (m s : ℕ) (hs : 0 < s) : m ≤ (m + s - 1) / s * s := by
  by_contra hc
  push_neg at hc
  have := (ceil_div_lt_iff m s ((m + s - 1) / s) hs).mpr hc
  omega

lemma ceil_pos (m s : ℕ) (hs : 0 < s) (hm : 0 < m) : 0 < (m + s - 1) / s := by
  rw [Nat.pos_iff_ne_zero]
  intro hc
  have := le_ceil_mul m s hs
  rw [hc] at this
  omega

/-- The column width produced by get_wgroup_size covers the row whenever
either vec * NUM * SIMD or vec * NUM * maxWG already covers it. -/
lemma get_wgroup_covers (SIMD vec NUM dim outer maxWG : ℕ)
    (hS : 0 < SIMD) (hv : 0 < vec) (hN : 0 < NUM) (hW : 0 < maxWG)
    (hd : 0 < dim)
    (hcap : dim ≤ vec * NUM * SIMD ∨ dim ≤ vec * NUM * maxWG) :
    dim ≤ vec * NUM *
      (get_wgroup_size SIMD vec NUM dim outer maxWG).local_size_col := by
  rw [get_wgroup_size]
  by_cases htiny : dim ≤ vec * NUM
  · simp only [htiny, if_true]
    simpa using htiny
  · simp only [htiny, if_false]
    have hNV : 0 < NUM * vec := Nat.mul_pos hN hv
    set ceil0 := (dim + NUM * vec - 1) / (NUM * vec) with hceil0
    set ls := min ceil0 maxWG with hls
    set sgn := (ls + SIMD - 1) / SIMD with hsgn
    have hls_pos : 0 < ls := by
      rw [hls]
      exact lt_min (ceil_pos dim (NUM * vec) hNV hd) hW
    have hsgn_pos : 0 < sgn := ceil_pos ls SIMD hS hls_pos
    have hcol_ge_ls : ls ≤ sgn * SIMD := le_ceil_mul ls SIMD hS
    have hcol_ge_S : SIMD ≤ sgn * SIMD :=
      Nat.le_mul_of_pos_left SIMD hsgn_pos
    by_cases hc0 : ceil0 ≤ maxWG
    · -- the ceiling is not capped: the column width covers the row by the
      -- ceiling property alone
      have hls_eq : ls = ceil0 := min_eq_left hc0
      have h1 : dim ≤ NUM * vec * ceil0 := by
        have := le_ceil_mul dim (NUM * vec) hNV
        calc dim ≤ (dim + NUM * vec - 1) / (NUM * vec) * (NUM * vec) := this
          _ = NUM * vec * ceil0 := by rw [hceil0]; ring
      calc dim ≤ NUM * vec * ceil0 := h1
        _ = NUM * vec * ls := by rw [hls_eq]
        _ ≤ NUM * vec * (sgn * SIMD) := Nat.mul_le_mul_left _ hcol_ge_ls
        _ = vec * NUM * (sgn * SIMD) := by ring
    · -- capped at the maximal work-group size: one of the two capacity
      -- disjuncts closes the bound
      have hls_eq : ls = maxWG := by
        rw [hls]
        exact min_eq_right (by omega)
      rcases hcap with h | h
      · calc dim ≤ vec * NUM * SIMD := h
          _ ≤ vec * NUM * (sgn * SIMD) := Nat.mul_le_mul_left _ hcol_ge_S
      · calc dim ≤ vec * NUM * maxWG := h
          _ = vec * NUM * ls := by rw [hls_eq]
          _ ≤ vec * NUM * (sgn * SIMD) := Nat.mul_le_mul_left _ hcol_ge_ls

/-- C7: whenever the register-resident fast path is selected
(max_work_group_size * INNER_LOOP at least dim_size, with
INNER_LOOP = 2 * max_vec), the configuration chosen by the dispatcher
together with the column width computed by get_wgroup_size satisfies
vec_size * outer_loop * local_size_col at least dim_size, for every pointer
alignment, every positive maximal vector width, and both hardware subgroup
widths. -/
theorem register_path_coverage_invariant (max_vec simdInit maxWG dim outer : ℕ)
    (ptrAligned : Bool) (hdim : 0 < dim) (hWG : 0 < maxWG) (hmv : 0 < max_vec)
    (hs : simdInit = 16 ∨ simdInit = 32)
    (hfast : dim ≤ maxWG * (max_vec * 2)) :
    dim ≤ (dispatch_forward_cfg max_vec (max_vec * 2) simdInit ptrAligned
        dim).vec_size *
      (dispatch_forward_cfg max_vec (max_vec * 2) simdInit ptrAligned
        dim).outer_loop *
      (get_wgroup_size
        (dispatch_forward_cfg max_vec (max_vec * 2) simdInit ptrAligned
          dim).SIMD
        (dispatch_forward_cfg max_vec (max_vec * 2) simdInit ptrAligned
          dim).vec_size
        (dispatch_forward_cfg max_vec (max_vec * 2) simdInit ptrAligned
          dim).outer_loop
        dim outer maxWG).local_size_col := by
  have hIL : max_vec * 2 / max_vec = 2 := by
    rw [Nat.mul_div_cancel_left 2 hmv]
  have hsimd_val : narrowSIMD simdInit (max_vec * 2) dim = 16 ∨
      narrowSIMD simdInit (max_vec * 2) dim = 32 := by
    rw [narrowSIMD]
    rcases hs with h | h
    · rw [h]
      simp
    · rw [h]
      by_cases hlt : dim < 16 * (max_vec * 2)
      · rw [if_pos ⟨rfl, hlt⟩]
        exact Or.inl rfl
      · rw [if_neg (fun hc => hlt hc.2)]
        exact Or.inr rfl
  rw [dispatch_forward_cfg]
  by_cases h32 : narrowSIMD simdInit (max_vec * 2) dim = 32
  · rw [if_pos h32]
    by_cases hal : (ptrAligned && decide (dim % max_vec = 0)) = true
    · rw [if_pos hal]
      simp only []
      rw [hIL]
      refine get_wgroup_covers 32 max_vec 2 dim outer maxWG (by omega) hmv
        (by omega) hWG hdim (Or.inr ?_)
      calc dim ≤ maxWG * (max_vec * 2) := hfast
        _ = max_vec * 2 * maxWG := by ring
    · rw [if_neg hal]
      simp only []
      refine get_wgroup_covers 32 1 (max_vec * 2) dim outer maxWG (by omega)
        (by omega) (by omega) hWG hdim (Or.inr ?_)
      calc dim ≤ maxWG * (max_vec * 2) := hfast
        _ = 1 * (max_vec * 2) * maxWG := by ring
  · rw [if_neg h32]
    have h16 : narrowSIMD simdInit (max_vec * 2) dim = 16 := by
      rcases hsimd_val with h | h
      · exact h
      · exact absurd h h32
    by_cases hal : (ptrAligned && decide (dim % max_vec = 0)) = true
    · rw [if_pos hal]
      by_cases hb1 : 4 ≤ max_vec ∧ dim ≤ 4 * narrowSIMD simdInit (max_vec * 2) dim
      · rw [if_pos hb1]
        simp only []
        refine get_wgroup_covers 16 4 1 dim outer maxWG (by omega) (by omega)
          (by omega) hWG hdim (Or.inl ?_)
        have := hb1.2
        rw [h16] at this
        omega
      · rw [if_neg hb1]
        by_cases hb2 : dim ≤ max_vec * narrowSIMD simdInit (max_vec * 2) dim
        · rw [if_pos hb2]
          simp only []
          refine get_wgroup_covers 16 max_vec 1 dim outer maxWG (by omega) hmv
            (by omega) hWG hdim (Or.inl ?_)
          rw [h16] at hb2
          calc dim ≤ max_vec * 16 := hb2
            _ = max_vec * 1 * 16 := by ring
        · rw [if_neg hb2]
          simp only []
          rw [hIL]
          refine get_wgroup_covers 16 max_vec (2 * 2) dim outer maxWG (by omega)
            hmv (by omega) hWG hdim (Or.inr ?_)
          calc dim ≤ maxWG * (max_vec * 2) := hfast
            _ ≤ maxWG * (max_vec * (2 * 2)) := by
              refine Nat.mul_le_mul_left _ ?_
              omega
            _ = max_vec * (2 * 2) * maxWG := by ring
    · rw [if_neg hal]
      simp only []
      refine get_wgroup_covers 16 1 (max_vec * 2 * 2) dim outer maxWG (by omega)
        (by omega) (by omega) hWG hdim (Or.inr ?_)
      calc dim ≤ maxWG * (max_vec * 2) := hfast
        _ ≤ maxWG * (max_vec * 2 * 2) := by
          refine Nat.mul_le_mul_left _ ?_
          omega
        _ = 1 * (max_vec * 2 * 2) * maxWG := by ring

/-- Witness for C7 at a concrete configuration: float element (max_vec 4),
subgroup width 32, work-group capacity 1024, row length 2000, aligned
pointers. -/
theorem register_path_coverage_invariant_witness :
    2000 ≤ (dispatch_forward_cfg 4 (4 * 2) 32 true 2000).vec_size *
      (dispatch_forward_cfg 4 (4 * 2) 32 true 2000).outer_loop *
      (get_wgroup_size (dispatch_forward_cfg 4 (4 * 2) 32 true 2000).SIMD
        (dispatch_forward_cfg 4 (4 * 2) 32 true 2000).vec_size
        (dispatch_forward_cfg 4 (4 * 2) 32 true 2000).outer_loop
        2000 64 1024).local_size_col :=
  register_path_coverage_invariant 4 32 1024 2000 64 true (by decide)
    (by decide) (by decide) (Or.inr rfl) (by decide)

/-!  Generic fold helpers shared by the kernel embeddings. -/

lemma foldl_preserve {α β : Type} (Inv : α → Prop) (step : α → β → α)
    (l : List β) (a : α) (ha : Inv a)
    (hstep : ∀ x b, b ∈ l → Inv x → Inv (step x b)) : Inv (l.foldl step a) := by
  induction l generalizing a with
  | nil => exact ha
  | cons b bs ih =>
    rw [List.foldl_cons]
    exact ih (step a b) (hstep a b (by simp) ha)
      (fun x c hc hx => hstep x c (by simp [hc]) hx)

lemma foldl_inv {α : Type} (Inv : List ℕ → α → Prop) (step : α → ℕ → α)
    (l : List ℕ) :
    ∀ (pre : List ℕ) (a : α), Inv pre a →
      (∀ (pre2 : List ℕ) (b : α) (k : ℕ), k ∈ l → Inv pre2 b →
        Inv (pre2 ++ [k]) (step b k)) →
      Inv (pre ++ l) (l.foldl step a) := by
  induction l with
  | nil => intro pre a ha _; simpa using ha
  | cons k ks ih =>
    intro pre a ha hstep
    rw [List.foldl_cons]
    have h1 : Inv (pre ++ [k]) (step a k) := hstep pre a k (by simp) ha
    have := ih (pre ++ [k]) (step a k) h1
      (fun pre2 b k2 hk2 hb => hstep pre2 b k2 (by simp [hk2]) hb)
    simpa [List.append_assoc] using this

/-- Number of iterations of a strided loop: how many k satisfy
base + k * stride < n. -/
def stridedCount (base stride n : ℕ) : ℕ := (n + stride - 1 - base) / stride

lemma stridedCount_lt_iff (base stride n k : ℕ) (hs : 0 < stride) :
    k < stridedCount base stride n ↔ base + k * stride < n := by
  rw [stridedCount]
  by_cases hb : base ≤ n
  · have heq : n + stride - 1 - base = (n - base) + stride - 1 := by omega
    rw [heq, ceil_div_lt_iff (n - base) stride k hs]
    have hgen : ∀ t : ℕ, t = k * stride → (t < n - base ↔ base + t < n) := by
      intro t _
      omega
    rw [hgen (k * stride) rfl]
  · have h0 : (n + stride - 1 - base) / stride = 0 :=
      Nat.div_eq_of_lt (by omega)
    rw [h0]
    constructor
    · omega
    · intro h
      omega

/-!  The register-resident softmax forward kernel
(DispatchSoftmaxForwardKernelFunctor), per reduced slice.  The launcher
passes neginf = -infinity and nan = quiet NaN, which are hard-coded here. -/

/-- The register value of position i after the mask fill: a masked position is
replaced by negative infinity. -/
def dispatchFwdReg (isMasked : Bool) (x : ℕ → Flt) (m : ℕ → Bool) (i : ℕ) :
    Flt :=
  if isMasked && m i then Flt.ninf else x i

/-- The max pass of the register-resident forward kernel: fold of
Numerics.max over the slice from the accscalar lowest value (parameter low). -/
def dispatchFwdMax (isMasked : Bool) (low : ℚ) (x : ℕ → Flt) (m : ℕ → Bool)
    (dim : ℕ) : Flt :=
  (List.range dim).foldl
    (fun a i => a.fmax (dispatchFwdReg isMasked x m i)) (Flt.fin low)

/-- The sum pass: exponentials of the max-shifted register values,
accumulated from zero. -/
def dispatchFwdSum (isMasked : Bool) (E : Flt → Flt) (x : ℕ → Flt)
    (m : ℕ → Bool) (maxv : Flt) (dim : ℕ) : Flt :=
  (List.range dim).foldl
    (fun a i => a.add (E ((dispatchFwdReg isMasked x m i).sub maxv)))
    (Flt.fin 0)

/-- The post-processing of the sum: the log for log-softmax, else the
reciprocal guarded by the explicit zero test of the source. -/
def dispatchFwdSumv (logSM : Bool) (L : Flt → Flt) (s : Flt) : Flt :=
  if logSM then L s else if s.beq (Flt.fin 0) then s else (Flt.fin 1).div s

/-- The value written to output position i by the register-resident forward
kernel: the log-softmax formula, or NaN when the processed sum is zero, or the
normalized exponential. -/
def dispatchFwdOut (logSM isMasked : Bool) (E L : Flt → Flt) (low : ℚ)
    (x : ℕ → Flt) (m : ℕ → Bool) (dim : ℕ) (i : ℕ) : Flt :=
  let maxv := dispatchFwdMax isMasked low x m dim
  let sumv := dispatchFwdSumv logSM L
    (dispatchFwdSum isMasked E x m maxv dim)
  let r := dispatchFwdReg isMasked x m i
  if logSM then (r.sub maxv).sub sumv
  else if sumv.beq (Flt.fin 0) then Flt.nan
  else (E (r.sub maxv)).mul sumv

/-!  The streaming reference forward kernel (SoftmaxForwardKernelFunctor),
per reduced slice: local_size workers stride over the vector chunks that
cover the row plus its alignment offset (start), and every lane is guarded by
the in-range test on the linear index. -/

/-- loops_end of the streaming kernels. -/
def loopsEnd (dim start vec : ℕ) : ℕ := (dim + start + vec - 1) / vec

/-- One streaming worker: iterate over its strided chunks and the vector
lanes of each chunk, folding f over the in-range linear indices, exactly like
the guarded loops of the streaming kernels. -/
def streamWorkerFold (f : Flt → ℕ → Flt) (init : Flt)
    (wid ls vec start dim : ℕ) : Flt :=
  (List.range (stridedCount wid ls (loopsEnd dim start vec))).foldl
    (fun a k =>
      (List.range vec).foldl
        (fun b j =>
          if start ≤ (wid + k * ls) * vec + j ∧
              (wid + k * ls) * vec + j - start < dim then
            f b ((wid + k * ls) * vec + j - start)
          else b)
        a)
    init

/-- The group-wide combine of the per-worker partial values
(reduce_over_group with maximum or plus). -/
def streamGroupFold (f : Flt → ℕ → Flt) (init : Flt)
    (comb : Flt → Flt → Flt) (ls vec start dim : ℕ) : Flt :=
  (List.range ls).foldl
    (fun a wid => comb a (streamWorkerFold f init wid ls vec start dim)) init

/-- The max pass of the streaming forward kernel. -/
def streamFwdMax (low : ℚ) (x : ℕ → Flt) (ls vec start dim : ℕ) : Flt :=
  streamGroupFold (fun a p => a.fmax (x p)) (Flt.fin low) Flt.fmax
    ls vec start dim

/-- The sum pass of the streaming forward kernel. -/
def streamFwdSum (E : Flt → Flt) (low : ℚ) (x : ℕ → Flt)
    (ls vec start dim : ℕ) : Flt :=
  streamGroupFold
    (fun a p => a.add (E ((x p).sub (streamFwdMax low x ls vec start dim))))
    (Flt.fin 0) Flt.add ls vec start dim

/-- The value the streaming forward kernel writes at slice position p: head
and tail chunks take the element-wise store path, interior chunks the vector
store path; both compute the same arithmetic on each element (the streaming
kernel has no zero-sum guard: the reciprocal is taken unconditionally). -/
def streamFwdOut (logSM : Bool) (E L : Flt → Flt) (low : ℚ) (x : ℕ → Flt)
    (ls vec start dim : ℕ) (p : ℕ) : Flt :=
  let maxv := streamFwdMax low x ls vec start dim
  let s := streamFwdSum E low x ls vec start dim
  let sumv := if logSM then L s else (Flt.fin 1).div s
  let c := (p + start) / vec
  if (0 < start ∧ c = 0) ∨ dim + start - c * vec < vec then
    (if logSM then ((x p).sub maxv).sub sumv
     else (E ((x p).sub maxv)).mul sumv)
  else
    (if logSM then ((x p).sub maxv).sub sumv
     else (E ((x p).sub maxv)).mul sumv)

/-!  The spatial forward kernel (SpatialSoftmaxForwardKernelFunctor), for one
(outer index, inner offset) slice: block_row workers stride over the reduced
dimension; each worker seeds its partial from its first strided element, and
the partials are combined by the shared-memory tree reduction
group_reduce_spatial, denoted here by a fold of the same combine over the
worker partials. -/

/-- The per-worker max partial of the spatial forward kernel, seeded from the
first element of the stride class. -/
def spatialWorkerMax (x : ℕ → Flt) (r br dim : ℕ) : Flt :=
  (List.range (stridedCount r br dim - 1)).foldl
    (fun a k => a.fmax (x (r + (k + 1) * br))) (x r)

/-- The combine of the block_row worker partials (group_reduce_spatial). -/
def spatialCombine (comb : Flt → Flt → Flt) (g : ℕ → Flt) (br : ℕ) : Flt :=
  (List.range (br - 1)).foldl (fun a r => comb a (g (r + 1))) (g 0)

/-- The max of one spatial slice. -/
def spatialFwdMax (x : ℕ → Flt) (br dim : ℕ) : Flt :=
  spatialCombine Flt.fmax (fun r => spatialWorkerMax x r br dim) br

/-- The per-worker sum partial of the spatial forward kernel, seeded from the
exponential of its first strided element. -/
def spatialWorkerSum (E : Flt → Flt) (x : ℕ → Flt) (maxv : Flt)
    (r br dim : ℕ) : Flt :=
  (List.range (stridedCount r br dim - 1)).foldl
    (fun a k => a.add (E ((x (r + (k + 1) * br)).sub maxv)))
    (E ((x r).sub maxv))

/-- The sum of one spatial slice. -/
def spatialFwdSum (E : Flt → Flt) (x : ℕ → Flt) (br dim : ℕ) : Flt :=
  spatialCombine Flt.add
    (fun r => spatialWorkerSum E x (spatialFwdMax x br dim) r br dim) br

/-- The value the spatial forward kernel writes at row i of its slice (no
zero-sum guard: the reciprocal is taken unconditionally). -/
def spatialFwdOut (logSM : Bool) (E L : Flt → Flt) (x : ℕ → Flt)
    (br dim : ℕ) (i : ℕ) : Flt :=
  let maxv := spatialFwdMax x br dim
  let s := spatialFwdSum E x br dim
  let sumv := if logSM then L s else (Flt.fin 1).div s
  if logSM then ((x i).sub maxv).sub sumv
  else (E ((x i).sub maxv)).mul sumv

lemma fin_add_fin (a b : ℚ) : (Flt.fin a).add (Flt.fin b) = Flt.fin (a + b) :=
  rfl

lemma fin_zero_add_zero : (Flt.fin 0).add (Flt.fin 0) = Flt.fin 0 := by
  rw [fin_add_fin, add_zero]

lemma ninf_sub_fin (q : ℚ) : Flt.ninf.sub (Flt.fin q) = Flt.ninf := rfl

lemma fin_sub_fin (a b : ℚ) : (Flt.fin a).sub (Flt.fin b) = Flt.fin (a - b) := by
  rw [Flt.sub, Flt.neg, fin_add_fin, sub_eq_add_neg]

lemma one_div_fin_zero : (Flt.fin 1).div (Flt.fin 0) = Flt.inf := by
  rw [Flt.div]
  norm_num

lemma fin_zero_mul_inf : (Flt.fin 0).mul Flt.inf = Flt.nan := by
  rw [Flt.mul]
  norm_num

lemma dispatchFwdSum_zero (isMasked : Bool) (E : Flt → Flt) (x : ℕ → Flt)
    (m : ℕ → Bool) (maxv : Flt) (dim : ℕ)
    (hz : ∀ i, i < dim → E ((dispatchFwdReg isMasked x m i).sub maxv) =
      Flt.fin 0) :
    dispatchFwdSum isMasked E x m maxv dim = Flt.fin 0 := by
  rw [dispatchFwdSum]
  refine foldl_preserve (· = Flt.fin 0) _ _ _ rfl ?_
  intro a i hi ha
  rw [ha, hz i (List.mem_range.mp hi), fin_zero_add_zero]

lemma streamFwdSum_zero (E : Flt → Flt) (low : ℚ) (x : ℕ → Flt)
    (ls vec start dim : ℕ)
    (hz : ∀ p, p < dim →
      E ((x p).sub (streamFwdMax low x ls vec start dim)) = Flt.fin 0) :
    streamFwdSum E low x ls vec start dim = Flt.fin 0 := by
  rw [streamFwdSum, streamGroupFold]
  refine foldl_preserve (· = Flt.fin 0) _ _ _ rfl ?_
  intro a wid _ ha
  rw [ha]
  have hw : streamWorkerFold
      (fun a p => a.add (E ((x p).sub (streamFwdMax low x ls vec start dim))))
      (Flt.fin 0) wid ls vec start dim = Flt.fin 0 := by
    rw [streamWorkerFold]
    refine foldl_preserve (· = Flt.fin 0) _ _ _ rfl ?_
    intro b k _ hb
    refine foldl_preserve (· = Flt.fin 0) _ _ _ hb ?_
    intro c j _ hc
    by_cases hg : start ≤ (wid + k * ls) * vec + j ∧
        (wid + k * ls) * vec + j - start < dim
    · rw [if_pos hg, hc, hz _ hg.2, fin_zero_add_zero]
    · rw [if_neg hg]
      exact hc
  rw [hw, fin_zero_add_zero]

lemma spatialFwdSum_zero (E : Flt → Flt) (x : ℕ → Flt) (br dim : ℕ)
    (hbr : 0 < br) (hbrd : br ≤ dim)
    (hz : ∀ i, i < dim → E ((x i).sub (spatialFwdMax x br dim)) = Flt.fin 0) :
    spatialFwdSum E x br dim = Flt.fin 0 := by
  rw [spatialFwdSum, spatialCombine]
  have hworker : ∀ r, r < br →
      spatialWorkerSum E x (spatialFwdMax x br dim) r br dim = Flt.fin 0 := by
    intro r hr
    rw [spatialWorkerSum]
    refine foldl_preserve (· = Flt.fin 0) _ _ _
      (hz r (lt_of_lt_of_le hr hbrd)) ?_
    intro a k hk ha
    have hk2 : k + 1 < stridedCount r br dim := by
      have := List.mem_range.mp hk
      omega
    have hidx : r + (k + 1) * br < dim :=
      (stridedCount_lt_iff r br dim (k + 1) hbr).mp hk2
    rw [ha, hz _ hidx, fin_zero_add_zero]
  refine foldl_preserve (· = Flt.fin 0) _ _ _ (hworker 0 hbr) ?_
  intro a r hr ha
  have hr2 : r + 1 < br := by
    have := List.mem_range.mp hr
    omega
  rw [ha, hworker (r + 1) hr2, fin_zero_add_zero]

/-- C4: in every forward tier, when every exponential of a slice underflows to
zero the plain-softmax output of the whole slice is NaN: the register-resident
kernel writes its NaN constant through the explicit zero-sum branch, while the
streaming and spatial kernels produce NaN as 0 * (1/0) = 0 * inf with no
special-casing; log-softmax has no zero-sum special case in any tier and
writes x - max - log(0) unchanged, letting log of the zero sum propagate into
every output element. -/
theorem softmax_forward_zero_sum_policy (E L : Flt → Flt) (low : ℚ)
    (x : ℕ → Flt) (m : ℕ → Bool) (dim ls vec start br : ℕ)
    (hbr : 0 < br) (hbrd : br ≤ dim)
    (hzd : ∀ i, i < dim →
      E ((x i).sub (dispatchFwdMax false low x m dim)) = Flt.fin 0)
    (hzs : ∀ p, p < dim →
      E ((x p).sub (streamFwdMax low x ls vec start dim)) = Flt.fin 0)
    (hzsp : ∀ i, i < dim →
      E ((x i).sub (spatialFwdMax x br dim)) = Flt.fin 0) :
    (∀ i, i < dim → dispatchFwdOut false false E L low x m dim i = Flt.nan) ∧
    (∀ i, i < dim → dispatchFwdOut true false E L low x m dim i =
      ((x i).sub (dispatchFwdMax false low x m dim)).sub (L (Flt.fin 0))) ∧
    (∀ p, p < dim → streamFwdOut false E L low x ls vec start dim p =
      Flt.nan) ∧
    (∀ p, p < dim → streamFwdOut true E L low x ls vec start dim p =
      ((x p).sub (streamFwdMax low x ls vec start dim)).sub (L (Flt.fin 0))) ∧
    (∀ i, i < dim → spatialFwdOut false E L x br dim i = Flt.nan) ∧
    (∀ i, i < dim → spatialFwdOut true E L x br dim i =
      ((x i).sub (spatialFwdMax x br dim)).sub (L (Flt.fin 0))) := by
  have hsd : dispatchFwdSum false E x m (dispatchFwdMax false low x m dim)
      dim = Flt.fin 0 :=
    dispatchFwdSum_zero false E x m _ dim (fun i hi => hzd i hi)
  have hss : streamFwdSum E low x ls vec start dim = Flt.fin 0 :=
    streamFwdSum_zero E low x ls vec start dim hzs
  have hssp : spatialFwdSum E x br dim = Flt.fin 0 :=
    spatialFwdSum_zero E x br dim hbr hbrd hzsp
  refine ⟨?_, ?_, ?_, ?_, ?_, ?_⟩
  · intro i _
    simp [dispatchFwdOut, hsd, dispatchFwdSumv, Flt.beq]
  · intro i _
    simp [dispatchFwdOut, hsd, dispatchFwdSumv, dispatchFwdReg]
  · intro p hp
    simp [streamFwdOut, hss, one_div_fin_zero, hzs p hp, fin_zero_mul_inf]
  · intro p _
    simp [streamFwdOut, hss]
  · intro i hi
    simp [spatialFwdOut, hssp, one_div_fin_zero, hzsp i hi, fin_zero_mul_inf]
  · intro i _
    simp [spatialFwdOut, hssp]

/-- Witness for C4 at a one-element slice with an exponential that returns
zero everywhere (total underflow). -/
theorem softmax_forward_zero_sum_policy_witness :
    (∀ i, i < 1 → dispatchFwdOut false false (fun _ => Flt.fin 0)
      (fun s => s) 0 (fun _ => Flt.fin 0) (fun _ => false) 1 i = Flt.nan) ∧
    (∀ i, i < 1 → dispatchFwdOut true false (fun _ => Flt.fin 0)
      (fun s => s) 0 (fun _ => Flt.fin 0) (fun _ => false) 1 i =
      (((fun _ => Flt.fin 0) i).sub (dispatchFwdMax false 0
        (fun _ => Flt.fin 0) (fun _ => false) 1)).sub
        ((fun s => s) (Flt.fin 0))) ∧
    (∀ p, p < 1 → streamFwdOut false (fun _ => Flt.fin 0) (fun s => s) 0
      (fun _ => Flt.fin 0) 1 1 0 1 p = Flt.nan) ∧
    (∀ p, p < 1 → streamFwdOut true (fun _ => Flt.fin 0) (fun s => s) 0
      (fun _ => Flt.fin 0) 1 1 0 1 p =
      (((fun _ => Flt.fin 0) p).sub (streamFwdMax 0 (fun _ => Flt.fin 0)
        1 1 0 1)).sub ((fun s => s) (Flt.fin 0))) ∧
    (∀ i, i < 1 → spatialFwdOut false (fun _ => Flt.fin 0) (fun s => s)
      (fun _ => Flt.fin 0) 1 1 i = Flt.nan) ∧
    (∀ i, i < 1 → spatialFwdOut true (fun _ => Flt.fin 0) (fun s => s)
      (fun _ => Flt.fin 0) 1 1 i =
      (((fun _ => Flt.fin 0) i).sub (spatialFwdMax (fun _ => Flt.fin 0)
        1 1)).sub ((fun s => s) (Flt.fin 0))) :=
  softmax_forward_zero_sum_policy (fun _ => Flt.fin 0) (fun s => s) 0
    (fun _ => Flt.fin 0) (fun _ => false) 1 1 1 0 1 (by decide) (by decide)
    (fun _ _ => rfl) (fun _ _ => rfl) (fun _ _ => rfl)

/-!  The register-resident softmax backward kernel
(DispatchSoftmaxBackwardKernelFunctor), per reduced slice: local_size workers
each process NUM chunks of vec lanes; the mask (when enabled) zeroes the
loaded output value before it enters the gradient sum and the write-back. -/

/-- The loaded output register of position q, zeroed at masked positions. -/
def dispatchBwdRegOut (isMasked : Bool) (o : ℕ → Flt) (m : ℕ → Bool)
    (q : ℕ) : Flt :=
  if isMasked && m q then Flt.fin 0 else o q

/-- One contribution to the backward gradient sum: gradOutput alone for
log-softmax, output times gradOutput otherwise. -/
def dispatchBwdTerm (logSM isMasked : Bool) (o g : ℕ → Flt) (m : ℕ → Bool)
    (q : ℕ) : Flt :=
  if logSM then g q else (dispatchBwdRegOut isMasked o m q).mul (g q)

/-- One worker of the register-resident backward kernel: chunks
(wid + k * ls) * vec for k < NUM, stopping at the row end (the source breaks
out of the loop at the first chunk offset past dim_size; chunk offsets grow
with k, so the break equals the guard written here), accumulating the
per-lane contributions. -/
def dispatchBwdWorkerSum (logSM isMasked : Bool) (o g : ℕ → Flt)
    (m : ℕ → Bool) (vec ls NUM dim : ℕ) (wid : ℕ) : Flt :=
  (List.range NUM).foldl
    (fun a k =>
      if (wid + k * ls) * vec < dim then
        (List.range vec).foldl
          (fun b j => b.add
            (dispatchBwdTerm logSM isMasked o g m ((wid + k * ls) * vec + j)))
          a
      else a)
    (Flt.fin 0)

/-- The group-combined gradient sum (group_reduce with plus). -/
def dispatchBwdSum (logSM isMasked : Bool) (o g : ℕ → Flt) (m : ℕ → Bool)
    (vec ls NUM dim : ℕ) : Flt :=
  (List.range ls).foldl
    (fun a wid =>
      a.add (dispatchBwdWorkerSum logSM isMasked o g m vec ls NUM dim wid))
    (Flt.fin 0)

/-- The gradInput value the register-resident backward kernel writes at
position p: gradOutput - exp(output) * sum for log-softmax, else
output * (gradOutput - sum), both using the mask-zeroed output register. -/
def dispatchBwdOut (logSM isMasked : Bool) (E : Flt → Flt) (o g : ℕ → Flt)
    (m : ℕ → Bool) (vec ls NUM dim : ℕ) (p : ℕ) : Flt :=
  let S := dispatchBwdSum logSM isMasked o g m vec ls NUM dim
  let r := dispatchBwdRegOut isMasked o m p
  if logSM then (g p).sub ((E r).mul S)
  else r.mul ((g p).sub S)

lemma chunk_pos_lt (c j vec dim : ℕ) (hvd : vec ∣ dim) (hj : j < vec)
    (hc : c * vec < dim) : c * vec + j < dim := by
  obtain ⟨t, rfl⟩ := hvd
  have hct : c < t := by
    by_contra h
    push_neg at h
    have h2 : t * vec ≤ c * vec := Nat.mul_le_mul_right vec h
    rw [Nat.mul_comm t vec] at h2
    omega
  calc c * vec + j < (c + 1) * vec := by rw [Nat.succ_mul]; omega
    _ ≤ t * vec := Nat.mul_le_mul_right vec hct
    _ = vec * t := Nat.mul_comm t vec

lemma fin_mul_fin (a b : ℚ) : (Flt.fin a).mul (Flt.fin b) = Flt.fin (a * b) :=
  rfl

lemma fin_zero_mul_fin (b : ℚ) : (Flt.fin 0).mul (Flt.fin b) = Flt.fin 0 := by
  rw [fin_mul_fin, zero_mul]

/-- The max pass of the masked register-resident forward kernel: with at
least one unmasked position and finite unmasked inputs bounded below by the
accumulator seed, the computed max is the largest unmasked value, attained at
an unmasked position. -/
lemma dispatchFwdMax_masked_spec (low : ℚ) (x : ℕ → Flt) (m : ℕ → Bool)
    (dim : ℕ) (hsome : ∃ i, i < dim ∧ m i = false)
    (hfin : ∀ i, i < dim → m i = false → ∃ q, x i = Flt.fin q ∧ low ≤ q) :
    ∃ M j, dispatchFwdMax true low x m dim = Flt.fin M ∧ j < dim ∧
      m j = false ∧ x j = Flt.fin M ∧
      ∀ i, i < dim → m i = false → ∀ q, x i = Flt.fin q → q ≤ M := by
  have hinv := foldl_inv
    (fun pre acc => ∃ Mq, acc = Flt.fin Mq ∧ low ≤ Mq ∧
      (∀ i ∈ pre, m i = false → ∀ q, x i = Flt.fin q → q ≤ Mq) ∧
      (Mq = low ∨ ∃ j ∈ pre, m j = false ∧ x j = Flt.fin Mq))
    (fun a i => a.fmax (dispatchFwdReg true x m i))
    (List.range dim) [] (Flt.fin low)
    ⟨low, rfl, le_refl low, fun i hi => absurd hi (by simp), Or.inl rfl⟩
  have hstep : ∀ (pre2 : List ℕ) (b : Flt) (k : ℕ), k ∈ List.range dim →
      (∃ Mq, b = Flt.fin Mq ∧ low ≤ Mq ∧
        (∀ i ∈ pre2, m i = false → ∀ q, x i = Flt.fin q → q ≤ Mq) ∧
        (Mq = low ∨ ∃ j ∈ pre2, m j = false ∧ x j = Flt.fin Mq)) →
      (∃ Mq, b.fmax (dispatchFwdReg true x m k) = Flt.fin Mq ∧ low ≤ Mq ∧
        (∀ i ∈ pre2 ++ [k], m i = false → ∀ q, x i = Flt.fin q → q ≤ Mq) ∧
        (Mq = low ∨ ∃ j ∈ pre2 ++ [k], m j = false ∧ x j = Flt.fin Mq)) := by
    intro pre2 b k hk ⟨Mq, hb, hlow, hbound, hatt⟩
    have hkd : k < dim := List.mem_range.mp hk
    cases hmk : m k with
    | true =>
      have hreg : dispatchFwdReg true x m k = Flt.ninf := by
        rw [dispatchFwdReg, hmk]
        rfl
      refine ⟨Mq, ?_, hlow, ?_, ?_⟩
      · rw [hb, hreg, Flt.fmax, Flt.blt]
        rfl
      · intro i hi hmi q hq
        rcases List.mem_append.mp hi with h | h
        · exact hbound i h hmi q hq
        · have : i = k := by simpa using h
          rw [this, hmk] at hmi
          exact absurd hmi (by simp)
      · rcases hatt with h | ⟨j, hj, hj2, hj3⟩
        · exact Or.inl h
        · exact Or.inr ⟨j, List.mem_append.mpr (Or.inl hj), hj2, hj3⟩
    | false =>
      obtain ⟨qk, hqk, hlowk⟩ := hfin k hkd hmk
      have hreg : dispatchFwdReg true x m k = Flt.fin qk := by
        rw [dispatchFwdReg, hmk]
        simpa using hqk
      by_cases hlt : Mq < qk
      · refine ⟨qk, ?_, hlowk, ?_, Or.inr ⟨k, by simp, hmk, hqk⟩⟩
        · rw [hb, hreg, Flt.fmax, Flt.blt]
          simp [hlt]
        · intro i hi hmi q hq
          rcases List.mem_append.mp hi with h | h
          · exact le_trans (hbound i h hmi q hq) (le_of_lt hlt)
          · have hik : i = k := by simpa using h
            rw [hik, hqk] at hq
            have hqe : q = qk := Flt.fin.inj hq.symm
            exact le_of_eq hqe
      · refine ⟨Mq, ?_, hlow, ?_, ?_⟩
        · rw [hb, hreg, Flt.fmax, Flt.blt]
          simp [hlt]
        · intro i hi hmi q hq
          rcases List.mem_append.mp hi with h | h
          · exact hbound i h hmi q hq
          · have hik : i = k := by simpa using h
            rw [hik, hqk] at hq
            have hqe : q = qk := Flt.fin.inj hq.symm
            rw [hqe]
            exact le_of_not_lt hlt
        · rcases hatt with h | ⟨j, hj, hj2, hj3⟩
          · exact Or.inl h
          · exact Or.inr ⟨j, List.mem_append.mpr (Or.inl hj), hj2, hj3⟩
  have hres := hinv hstep
  rw [List.nil_append] at hres
  obtain ⟨Mq, hval, hlow, hbound, hatt⟩ := hres
  rcases hatt with h | ⟨j, hj, hj2, hj3⟩
  · -- the fold never left the seed: every unmasked value equals the seed
    obtain ⟨i0, hi0, hm0⟩ := hsome
    obtain ⟨q0, hq0, hlow0⟩ := hfin i0 hi0 hm0
    have hub := hbound i0 (List.mem_range.mpr hi0) hm0 q0 hq0
    have h2 : Mq ≤ q0 := by rw [h]; exact hlow0
    have hq0M : q0 = Mq := le_antisymm hub h2
    exact ⟨Mq, i0, hval, hi0, hm0, by rw [hq0, hq0M], fun i hi hmi q hq =>
      hbound i (List.mem_range.mpr hi) hmi q hq⟩
  · exact ⟨Mq, j, hval, List.mem_range.mp hj, hj2, hj3, fun i hi hmi q hq =>
      hbound i (List.mem_range.mpr hi) hmi q hq⟩

/-- The sum pass of the masked register-resident forward kernel: with the max
attained at an unmasked position, the accumulated sum is a finite value of at
least 1 (the attaining term contributes exp(0) = 1 and every other term is a
nonnegative finite value or the exp(-inf) = 0 of a masked position). -/
lemma dispatchFwdSum_masked_pos (E : Flt → Flt) (x : ℕ → Flt) (m : ℕ → Bool)
    (dim : ℕ) (M : ℚ) (j0 : ℕ) (hj0 : j0 < dim) (hm0 : m j0 = false)
    (hx0 : x j0 = Flt.fin M)
    (hfin : ∀ i, i < dim → m i = false → ∃ q, x i = Flt.fin q)
    (hE1 : E (Flt.fin 0) = Flt.fin 1)
    (hEninf : E Flt.ninf = Flt.fin 0)
    (hEpos : ∀ q : ℚ, ∃ r, 0 ≤ r ∧ E (Flt.fin q) = Flt.fin r) :
    ∃ s, dispatchFwdSum true E x m (Flt.fin M) dim = Flt.fin s ∧ 1 ≤ s := by
  have hinv := foldl_inv
    (fun pre acc => ∃ s, acc = Flt.fin s ∧ 0 ≤ s ∧ (j0 ∈ pre → 1 ≤ s))
    (fun a i => a.add (E ((dispatchFwdReg true x m i).sub (Flt.fin M))))
    (List.range dim) [] (Flt.fin 0)
    ⟨0, rfl, le_refl 0, fun h => absurd h (by simp)⟩
  have hstep : ∀ (pre2 : List ℕ) (b : Flt) (k : ℕ), k ∈ List.range dim →
      (∃ s, b = Flt.fin s ∧ 0 ≤ s ∧ (j0 ∈ pre2 → 1 ≤ s)) →
      (∃ s, b.add (E ((dispatchFwdReg true x m k).sub (Flt.fin M))) =
        Flt.fin s ∧ 0 ≤ s ∧ (j0 ∈ pre2 ++ [k] → 1 ≤ s)) := by
    intro pre2 b k hk ⟨s, hb, hs, hj⟩
    have hkd : k < dim := List.mem_range.mp hk
    by_cases hkj : k = j0
    · subst hkj
      have hreg : dispatchFwdReg true x m k = Flt.fin M := by
        rw [dispatchFwdReg, hm0]
        simpa using hx0
      refine ⟨s + 1, ?_, by linarith, fun _ => by linarith⟩
      rw [hb, hreg, fin_sub_fin, sub_self, hE1, fin_add_fin]
    · cases hmk : m k with
      | true =>
        have hreg : dispatchFwdReg true x m k = Flt.ninf := by
          rw [dispatchFwdReg, hmk]
          rfl
        refine ⟨s, ?_, hs, fun h => ?_⟩
        · rw [hb, hreg, ninf_sub_fin, hEninf, fin_add_fin, add_zero]
        · rcases List.mem_append.mp h with h2 | h2
          · exact hj h2
          · have : j0 = k := by simpa using h2
            exact absurd this.symm hkj
      | false =>
        obtain ⟨qk, hqk⟩ := hfin k hkd hmk
        obtain ⟨r, hr, hEr⟩ := hEpos (qk - M)
        have hreg : dispatchFwdReg true x m k = Flt.fin qk := by
          rw [dispatchFwdReg, hmk]
          simpa using hqk
        refine ⟨s + r, ?_, by linarith, fun h => ?_⟩
        · rw [hb, hreg, fin_sub_fin, hEr, fin_add_fin]
        · rcases List.mem_append.mp h with h2 | h2
          · have := hj h2
            linarith
          · have : j0 = k := by simpa using h2
            exact absurd this.symm hkj
  have hres := hinv hstep
  rw [List.nil_append] at hres
  obtain ⟨s, hval, _, hone⟩ := hres
  exact ⟨s, hval, hone (List.mem_range.mpr hj0)⟩

/-- The backward gradient sum is a finite value whenever the output and
gradOutput slices are finite (the mask can only replace output values by the
finite zero). -/
lemma dispatchBwdSum_finite (logSM isMasked : Bool) (o g : ℕ → Flt)
    (m : ℕ → Bool) (vec ls NUM dim : ℕ) (hvd : vec ∣ dim)
    (hof : ∀ q, q < dim → ∃ a, o q = Flt.fin a)
    (hgf : ∀ q, q < dim → ∃ b, g q = Flt.fin b) :
    ∃ s, dispatchBwdSum logSM isMasked o g m vec ls NUM dim = Flt.fin s := by
  have hterm : ∀ q, q < dim →
      ∃ c, dispatchBwdTerm logSM isMasked o g m q = Flt.fin c := by
    intro q hq
    obtain ⟨b, hb⟩ := hgf q hq
    cases logSM with
    | true => exact ⟨b, by rw [dispatchBwdTerm]; simpa using hb⟩
    | false =>
      rw [dispatchBwdTerm]
      by_cases hmq : isMasked && m q
      · refine ⟨0 * b, ?_⟩
        simp only [dispatchBwdRegOut, if_pos hmq, Bool.false_eq_true, if_false]
        rw [hb, fin_mul_fin]
      · obtain ⟨a, ha⟩ := hof q hq
        refine ⟨a * b, ?_⟩
        simp only [dispatchBwdRegOut, if_neg hmq, Bool.false_eq_true, if_false]
        rw [ha, hb, fin_mul_fin]
  have hworker : ∀ wid, ∃ s,
      dispatchBwdWorkerSum logSM isMasked o g m vec ls NUM dim wid =
        Flt.fin s := by
    intro wid
    rw [dispatchBwdWorkerSum]
    refine foldl_preserve (fun v => ∃ s, v = Flt.fin s) _ _ _ ⟨0, rfl⟩ ?_
    intro a k _ ⟨s, hs⟩
    by_cases hg : (wid + k * ls) * vec < dim
    · rw [if_pos hg]
      refine foldl_preserve (fun v => ∃ s, v = Flt.fin s) _ _ _ ⟨s, hs⟩ ?_
      intro b j hj ⟨t, ht⟩
      have hlt : (wid + k * ls) * vec + j < dim :=
        chunk_pos_lt _ j vec dim hvd (List.mem_range.mp hj) hg
      obtain ⟨c, hc⟩ := hterm _ hlt
      exact ⟨t + c, by rw [ht, hc, fin_add_fin]⟩
    · rw [if_neg hg]
      exact ⟨s, hs⟩
  rw [dispatchBwdSum]
  refine foldl_preserve (fun v => ∃ s, v = Flt.fin s) _ _ _ ⟨0, rfl⟩ ?_
  intro a wid _ ⟨s, hs⟩
  obtain ⟨t, ht⟩ := hworker wid
  exact ⟨s + t, by rw [hs, ht, fin_add_fin]⟩

/-- The concrete exponential of the C5 counterexample: 0 at -inf and 1 on
finite values, as IEEE exp behaves at those inputs. -/
def ceE : Flt → Flt := fun a => if a = Flt.ninf then Flt.fin 0 else Flt.fin 1

/-- The concrete one-element input slice of the C5 counterexample. -/
def ceX : ℕ → Flt := fun _ => Flt.fin 0

/-- The all-true mask of the C5 counterexample. -/
def ceM : ℕ → Bool := fun _ => true

/-- C5 counterexample: a fully masked one-element slice.  The masked position
is treated as negative infinity, the exponential sum is zero, and the
register-resident masked forward kernel writes NaN there, not 0. -/
theorem masked_softmax_all_masked_counterexample :
    dispatchFwdOut false true ceE (fun s => s) 0 ceX ceM 1 0 ≠ Flt.fin 0 := by
  have hmax : dispatchFwdMax true 0 ceX ceM 1 = Flt.fin 0 := rfl
  have hsum : dispatchFwdSum true ceE ceX ceM (Flt.fin 0) 1 =
      Flt.fin (0 + 0) := rfl
  have hsum0 : dispatchFwdSum true ceE ceX ceM (Flt.fin 0) 1 = Flt.fin 0 := by
    rw [hsum]
    norm_num
  have hbeq : (Flt.fin 0).beq (Flt.fin 0) = true := by
    simp [Flt.beq]
  rw [dispatchFwdOut]
  simp only [hmax, hsum0, dispatchFwdSumv, Bool.false_eq_true, if_false, hbeq,
    if_true]
  simp

/-- C5 (amended): in the register-resident masked kernels, provided the slice
has at least one unmasked position and the participating values are finite
(unmasked inputs at least the accumulator seed low; exp maps 0 to 1, -inf to
0 and finite values to nonnegative finite values, as IEEE exp does), every
masked position of the forward output is 0; and in the masked backward the
output register of a masked position is zeroed before the gradient sum, so
its contribution to the sum is exactly 0 and its gradInput value is 0.  (On a
fully masked slice the forward instead writes NaN everywhere, per the
counterexample.) -/
theorem masked_softmax_zero_semantics (E Eb L : Flt → Flt) (low : ℚ)
    (x o g : ℕ → Flt) (m : ℕ → Bool) (dim vec ls NUM : ℕ)
    (hsome : ∃ i, i < dim ∧ m i = false)
    (hfin : ∀ i, i < dim → m i = false → ∃ q, x i = Flt.fin q ∧ low ≤ q)
    (hE1 : E (Flt.fin 0) = Flt.fin 1)
    (hEninf : E Flt.ninf = Flt.fin 0)
    (hEpos : ∀ q : ℚ, ∃ r, 0 ≤ r ∧ E (Flt.fin q) = Flt.fin r)
    (hof : ∀ q, q < dim → ∃ a, o q = Flt.fin a)
    (hgf : ∀ q, q < dim → ∃ b, g q = Flt.fin b)
    (hvd : vec ∣ dim) :
    (∀ i, i < dim → m i = true →
      dispatchFwdOut false true E L low x m dim i = Flt.fin 0) ∧
    (∀ q, q < dim → m q = true →
      dispatchBwdRegOut true o m q = Flt.fin 0 ∧
      dispatchBwdTerm false true o g m q = Flt.fin 0) ∧
    (∀ p, p < dim → m p = true →
      dispatchBwdOut false true Eb o g m vec ls NUM dim p = Flt.fin 0) := by
  obtain ⟨M, j0, hmax, hj0, hm0, hx0, _⟩ :=
    dispatchFwdMax_masked_spec low x m dim hsome hfin
  obtain ⟨s, hsum, hs1⟩ := dispatchFwdSum_masked_pos E x m dim M j0 hj0 hm0
    hx0 (fun i hi hmi => ⟨(hfin i hi hmi).choose, (hfin i hi hmi).choose_spec.1⟩)
    hE1 hEninf hEpos
  refine ⟨?_, ?_, ?_⟩
  · intro i _ hmi
    have hreg : dispatchFwdReg true x m i = Flt.ninf := by
      rw [dispatchFwdReg, hmi]
      rfl
    have hsne : s ≠ 0 := by
      intro hc
      rw [hc] at hs1
      norm_num at hs1
    have hrecne : (1 : ℚ) / s ≠ 0 := by
      intro hc
      rw [div_eq_zero_iff] at hc
      rcases hc with h | h
      · exact one_ne_zero h
      · exact hsne h
    have hbeq1 : (Flt.fin s).beq (Flt.fin 0) = false := by
      simp [Flt.beq]
      exact hsne
    have hbeq2 : (Flt.fin (1 / s)).beq (Flt.fin 0) = false := by
      simp [Flt.beq]
      exact hsne
    have hdiv : (Flt.fin 1).div (Flt.fin s) = Flt.fin (1 / s) := by
      simp [Flt.div, hsne]
    rw [dispatchFwdOut]
    simp only [hmax, hsum, dispatchFwdSumv, Bool.false_eq_true, if_false,
      hbeq1, hdiv, hbeq2, hreg]
    rw [ninf_sub_fin, hEninf, fin_zero_mul_fin]
  · intro q hq hmq
    have hreg : dispatchBwdRegOut true o m q = Flt.fin 0 := by
      rw [dispatchBwdRegOut, hmq]
      rfl
    refine ⟨hreg, ?_⟩
    rw [dispatchBwdTerm]
    simp only [Bool.false_eq_true, if_false]
    rw [hreg]
    obtain ⟨b, hb⟩ := hgf q hq
    rw [hb, fin_zero_mul_fin]
  · intro p hp hmp
    obtain ⟨S, hS⟩ := dispatchBwdSum_finite false true o g m vec ls NUM dim
      hvd hof hgf
    rw [dispatchBwdOut]
    simp only [hS, Bool.false_eq_true, if_false]
    have hreg : dispatchBwdRegOut true o m p = Flt.fin 0 := by
      rw [dispatchBwdRegOut, hmp]
      rfl
    obtain ⟨b, hb⟩ := hgf p hp
    rw [hreg, hb, fin_sub_fin, fin_zero_mul_fin]

/-- Witness for C5 at a two-element slice with the first position masked and
the second unmasked, with concrete finite tensors and the concrete
exponential mapping -inf to 0 and finite values to 1. -/
theorem masked_softmax_zero_semantics_witness :
    (∀ i, i < 2 → (fun i => decide (i = 0)) i = true →
      dispatchFwdOut false true
        (fun a => if a = Flt.ninf then Flt.fin 0 else Flt.fin 1)
        (fun s => s) 0 (fun _ => Flt.fin 0) (fun i => decide (i = 0)) 2 i =
        Flt.fin 0) ∧
    (∀ q, q < 2 → (fun i => decide (i = 0)) q = true →
      dispatchBwdRegOut true (fun _ => Flt.fin 2)
        (fun i => decide (i = 0)) q = Flt.fin 0 ∧
      dispatchBwdTerm false true (fun _ => Flt.fin 2) (fun _ => Flt.fin 3)
        (fun i => decide (i = 0)) q = Flt.fin 0) ∧
    (∀ p, p < 2 → (fun i => decide (i = 0)) p = true →
      dispatchBwdOut false true (fun s => s) (fun _ => Flt.fin 2)
        (fun _ => Flt.fin 3) (fun i => decide (i = 0)) 1 1 2 2 p =
        Flt.fin 0) :=
  masked_softmax_zero_semantics
    (fun a => if a = Flt.ninf then Flt.fin 0 else Flt.fin 1) (fun s => s)
    (fun s => s) 0 (fun _ => Flt.fin 0) (fun _ => Flt.fin 2)
    (fun _ => Flt.fin 3) (fun i => decide (i = 0)) 2 1 1 2
    ⟨1, by decide, by decide⟩
    (fun i _ _ => ⟨0, rfl, le_refl 0⟩)
    (by decide) (by decide)
    (fun q => ⟨1, by norm_num, by simp⟩)
    (fun q _ => ⟨2, rfl⟩) (fun q _ => ⟨3, rfl⟩) ⟨2, rfl⟩

/-!  Exact-sum machinery: the iteration patterns of the three backward tiers
(worker striding, chunking, vector lanes, alignment guards) cover each slice
position exactly once, so the accumulated sums equal the per-slice sums. -/

lemma foldl_add_fin (t : ℕ → Flt) (tv : ℕ → ℚ) :
    ∀ (l : List ℕ) (c : ℚ), (∀ i ∈ l, t i = Flt.fin (tv i)) →
      l.foldl (fun a i => a.add (t i)) (Flt.fin c) =
        Flt.fin (c + (l.map tv).sum) := by
  intro l
  induction l with
  | nil => intro c _; simp
  | cons i l ih =>
    intro c h
    rw [List.foldl_cons, h i (by simp), fin_add_fin,
      ih (c + tv i) (fun j hj => h j (by simp [hj]))]
    simp [add_assoc]

lemma foldl_flatMap {α β : Type} (l : List β) (f : β → List ℕ)
    (step : α → ℕ → α) (init : α) :
    (l.flatMap f).foldl step init =
      l.foldl (fun a b => (f b).foldl step a) init := by
  induction l generalizing init with
  | nil => rfl
  | cons b l ih =>
    rw [List.flatMap_cons, List.foldl_append, List.foldl_cons, ih]

/-- A list of positions that is exactly the interval [0, n), without
repetition. -/
def coveredBy (L : List ℕ) (n : ℕ) : Prop :=
  L.Nodup ∧ ∀ p, p ∈ L ↔ p < n

lemma sum_of_coveredBy (L : List ℕ) (n : ℕ) (h : coveredBy L n)
    (tv : ℕ → ℚ) : (L.map tv).sum = ∑ i in Finset.range n, tv i := by
  have h1 : L.toFinset = Finset.range n := by
    ext p
    rw [List.mem_toFinset, Finset.mem_range]
    exact h.2 p
  rw [← List.sum_toFinset tv h.1, h1]

lemma pairwise_disjoint_of_mem {f : ℕ → List ℕ} (l : List ℕ) (hl : l.Nodup)
    (h : ∀ a ∈ l, ∀ b ∈ l, a ≠ b → ∀ p, p ∈ f a → p ∈ f b → False) :
    l.Pairwise (fun a b => (f a).Disjoint (f b)) := by
  induction l with
  | nil => exact List.Pairwise.nil
  | cons a l ih =>
    rw [List.nodup_cons] at hl
    refine List.Pairwise.cons ?_
      (ih hl.2 (fun u hu v hv huv => h u (by simp [hu]) v (by simp [hv]) huv))
    intro b hb p hpa hpb
    exact h a (by simp) b (by simp [hb])
      (fun hab => hl.1 (hab ▸ hb)) p hpa hpb

/-- The chunk indices one strided worker visits: base r, stride s, bound n. -/
def stridedList (r s n : ℕ) : List ℕ :=
  (List.range (stridedCount r s n)).map (fun k => r + k * s)

lemma mem_stridedList (r s n p : ℕ) (hs : 0 < s) (hr : r < s) :
    p ∈ stridedList r s n ↔ p < n ∧ p % s = r := by
  rw [stridedList, List.mem_map]
  constructor
  · rintro ⟨k, hk, rfl⟩
    have hlt := (stridedCount_lt_iff r s n k hs).mp (List.mem_range.mp hk)
    refine ⟨hlt, ?_⟩
    rw [Nat.add_mul_mod_self_right, Nat.mod_eq_of_lt hr]
  · rintro ⟨hp, hmod⟩
    have hdm : p / s * s + p % s = p := by
      have h2 := Nat.div_add_mod p s
      rw [Nat.mul_comm] at h2
      exact h2
    refine ⟨p / s, List.mem_range.mpr ?_, ?_⟩
    · rw [stridedCount_lt_iff r s n (p / s) hs]
      omega
    · omega

lemma stridedList_nodup (r s n : ℕ) (hs : 0 < s) :
    (stridedList r s n).Nodup := by
  rw [stridedList]
  refine List.Nodup.map ?_ (List.nodup_range _)
  intro k1 k2 hk
  have hk2 : r + k1 * s = r + k2 * s := hk
  have : k1 * s = k2 * s := by omega
  exact Nat.eq_of_mul_eq_mul_right hs this

lemma strided_union_covers (s n : ℕ) (hs : 0 < s) :
    coveredBy ((List.range s).flatMap (fun r => stridedList r s n)) n := by
  constructor
  · rw [List.nodup_flatMap]
    refine ⟨fun r _ => stridedList_nodup r s n hs, ?_⟩
    refine pairwise_disjoint_of_mem _ (List.nodup_range s) ?_
    intro a ha b hb hab p hpa hpb
    have h1 := (mem_stridedList a s n p hs (List.mem_range.mp ha)).mp hpa
    have h2 := (mem_stridedList b s n p hs (List.mem_range.mp hb)).mp hpb
    exact hab (h1.2 ▸ h2.2)
  · intro p
    rw [List.mem_flatMap]
    constructor
    · rintro ⟨r, hr, hp⟩
      exact ((mem_stridedList r s n p hs (List.mem_range.mp hr)).mp hp).1
    · intro hp
      refine ⟨p % s, List.mem_range.mpr (Nat.mod_lt p hs), ?_⟩
      rw [mem_stridedList _ s n p hs (Nat.mod_lt p hs)]
      exact ⟨hp, rfl⟩

/-- The slice positions of one vector chunk. -/
def chunkLanes (vec c : ℕ) : List ℕ :=
  (List.range vec).map (fun j => c * vec + j)

lemma mem_chunkLanes (vec c p : ℕ) :
    p ∈ chunkLanes vec c ↔ ∃ j, j < vec ∧ p = c * vec + j := by
  rw [chunkLanes, List.mem_map]
  constructor
  · rintro ⟨j, hj, rfl⟩
    exact ⟨j, List.mem_range.mp hj, rfl⟩
  · rintro ⟨j, hj, rfl⟩
    exact ⟨j, List.mem_range.mpr hj, rfl⟩

lemma chunkLanes_div (vec c p : ℕ) (hv : 0 < vec) (hp : p ∈ chunkLanes vec c) :
    p / vec = c := by
  obtain ⟨j, hj, rfl⟩ := (mem_chunkLanes vec c p).mp hp
  rw [Nat.mul_comm c vec, Nat.mul_add_div hv, Nat.div_eq_of_lt hj, add_zero]

lemma lanes_covers (L : List ℕ) (n vec : ℕ) (hv : 0 < vec)
    (h : coveredBy L n) :
    coveredBy (L.flatMap (chunkLanes vec)) (n * vec) := by
  constructor
  · rw [List.nodup_flatMap]
    refine ⟨fun c _ => ?_, ?_⟩
    · refine List.Nodup.map ?_ (List.nodup_range _)
      intro j1 j2 hj
      have hj2 : c * vec + j1 = c * vec + j2 := hj
      omega
    · refine pairwise_disjoint_of_mem _ h.1 ?_
      intro a _ b _ hab p hpa hpb
      have h1 := chunkLanes_div vec a p hv hpa
      have h2 := chunkLanes_div vec b p hv hpb
      exact hab (h1 ▸ h2)
  · intro p
    rw [List.mem_flatMap]
    constructor
    · rintro ⟨c, hc, hp⟩
      obtain ⟨j, hj, rfl⟩ := (mem_chunkLanes vec c p).mp hp
      have hcn : c < n := (h.2 c).mp hc
      calc c * vec + j < (c + 1) * vec := by rw [Nat.succ_mul]; omega
        _ ≤ n * vec := Nat.mul_le_mul_right vec hcn
    · intro hp
      refine ⟨p / vec, (h.2 (p / vec)).mpr ?_, ?_⟩
      · rw [Nat.div_lt_iff_lt_mul hv]
        exact hp
      · rw [mem_chunkLanes]
        refine ⟨p % vec, Nat.mod_lt p hv, ?_⟩
        have hdm : p / vec * vec + p % vec = p := by
          have h2 := Nat.div_add_mod p vec
          rw [Nat.mul_comm] at h2
          exact h2
        omega

lemma flatMap_flatMap {α : Type} (l : List α) (f : α → List ℕ)
    (g : ℕ → List ℕ) :
    (l.flatMap f).flatMap g = l.flatMap (fun x => (f x).flatMap g) := by
  induction l with
  | nil => rfl
  | cons a l ih =>
    rw [List.flatMap_cons, List.flatMap_cons, List.flatMap_append, ih]

lemma sum_map_flatMap {α : Type} (l : List α) (f : α → List ℕ) (tv : ℕ → ℚ) :
    ((l.flatMap f).map tv).sum = (l.map (fun b => ((f b).map tv).sum)).sum := by
  induction l with
  | nil => rfl
  | cons a l ih =>
    rw [List.flatMap_cons, List.map_append, List.sum_append, List.map_cons,
      List.sum_cons, ih]

lemma foldl_inner_fin {β : Type} (F : Flt → β → Flt) (Fv : β → ℚ) :
    ∀ (l : List β) (c : ℚ),
      (∀ b ∈ l, ∀ q : ℚ, F (Flt.fin q) b = Flt.fin (q + Fv b)) →
      l.foldl F (Flt.fin c) = Flt.fin (c + (l.map Fv).sum) := by
  intro l
  induction l with
  | nil => intro c _; simp
  | cons b l ih =>
    intro c h
    rw [List.foldl_cons, h b (by simp) c, ih (c + Fv b)
      (fun b2 hb2 q => h b2 (by simp [hb2]) q)]
    simp [add_assoc]

lemma foldl_guard_add_fin (ψ : ℕ → Flt) (ψv : ℕ → ℚ) (P : ℕ → Prop)
    [DecidablePred P] :
    ∀ (l : List ℕ) (c : ℚ), (∀ i ∈ l, P i → ψ i = Flt.fin (ψv i)) →
      l.foldl (fun b i => if P i then b.add (ψ i) else b) (Flt.fin c) =
        Flt.fin (c + (l.map (fun i => if P i then ψv i else 0)).sum) := by
  intro l
  induction l with
  | nil => intro c _; simp
  | cons i l ih =>
    intro c h
    rw [List.foldl_cons]
    by_cases hp : P i
    · rw [if_pos hp, h i (by simp) hp, fin_add_fin,
        ih (c + ψv i) (fun j hj hpj => h j (by simp [hj]) hpj)]
      simp [hp, add_assoc]
    · rw [if_neg hp, ih c (fun j hj hpj => h j (by simp [hj]) hpj)]
      simp [hp]

lemma foldl_guard_all {α : Type} (g : α → ℕ → α) (P : ℕ → Prop)
    [DecidablePred P] :
    ∀ (l : List ℕ) (init : α), (∀ k ∈ l, P k) →
      l.foldl (fun a k => if P k then g a k else a) init = l.foldl g init := by
  intro l
  induction l with
  | nil => intro init _; rfl
  | cons k l ih =>
    intro init h
    rw [List.foldl_cons, List.foldl_cons, if_pos (h k (by simp)),
      ih (g init k) (fun j hj => h j (by simp [hj]))]

lemma foldl_range_guard {α : Type} (g : α → ℕ → α) (P : ℕ → Prop)
    [DecidablePred P] :
    ∀ (N c : ℕ), c ≤ N → (∀ k, P k ↔ k < c) → ∀ (init : α),
      (List.range N).foldl (fun a k => if P k then g a k else a) init =
        (List.range c).foldl g init := by
  intro N
  induction N with
  | zero =>
    intro c hc _ init
    have : c = 0 := by omega
    rw [this]
    rfl
  | succ n ih =>
    intro c hc hiff init
    by_cases hcn : c ≤ n
    · rw [List.range_succ, List.foldl_append, ih c hcn hiff init]
      have hPn : ¬ P n := by
        rw [hiff]
        omega
      simp [hPn]
    · have hceq : c = n + 1 := by omega
      rw [hceq]
      exact foldl_guard_all g P (List.range (n + 1)) init
        (fun k hk => (hiff k).mpr (by rw [hceq] at hiff ⊢
                                      exact List.mem_range.mp hk))

lemma flatMap_map_list {α β : Type} (l : List α) (f : α → β)
    (g : β → List ℕ) : (l.map f).flatMap g = l.flatMap (fun x => g (f x)) := by
  induction l with
  | nil => rfl
  | cons a l ih =>
    rw [List.map_cons, List.flatMap_cons, List.flatMap_cons, ih]

lemma guard_shift_sum (tv : ℕ → ℚ) (start dim W : ℕ) (hW : start + dim ≤ W) :
    (∑ P in Finset.range W,
      (if start ≤ P ∧ P - start < dim then tv (P - start) else 0)) =
    ∑ p in Finset.range dim, tv p := by
  have hsub : Finset.Ico start (start + dim) ⊆ Finset.range W := by
    intro P hP
    rw [Finset.mem_Ico] at hP
    rw [Finset.mem_range]
    omega
  have hzero : ∀ P ∈ Finset.range W, P ∉ Finset.Ico start (start + dim) →
      (if start ≤ P ∧ P - start < dim then tv (P - start) else 0) = 0 := by
    intro P _ hP
    rw [Finset.mem_Ico] at hP
    rw [if_neg]
    omega
  rw [← Finset.sum_subset hsub hzero]
  have hc : ∀ P ∈ Finset.Ico start (start + dim),
      (if start ≤ P ∧ P - start < dim then tv (P - start) else 0) =
        tv (P - start) := by
    intro P hP
    rw [Finset.mem_Ico] at hP
    rw [if_pos]
    omega
  rw [Finset.sum_congr rfl hc, Finset.sum_Ico_eq_sum_range]
  have h2 : start + dim - start = dim := by omega
  rw [h2]
  refine Finset.sum_congr rfl ?_
  intro i _
  have : start + i - start = i := by omega
  rw [this]

/-!  The streaming reference backward kernel (SoftmaxBackwardKernelFunctor),
per reduced slice: the gradient sum uses the same guarded strided iteration as
the streaming forward kernel, and the write-back applies the backward formula
to every in-range position (head/tail chunks element-wise, interior chunks
vectorized, with identical arithmetic). -/

/-- One contribution to the streaming backward gradient sum: gradOutput alone
for log-softmax, output times gradOutput otherwise. -/
def streamBwdTerm (logSM : Bool) (o g : ℕ → Flt) (p : ℕ) : Flt :=
  if logSM then g p else (o p).mul (g p)

/-- The group-combined gradient sum of the streaming backward kernel
(reduce_over_group with plus). -/
def streamBwdSum (logSM : Bool) (o g : ℕ → Flt) (ls vec start dim : ℕ) :
    Flt :=
  streamGroupFold (fun a p => a.add (streamBwdTerm logSM o g p)) (Flt.fin 0)
    Flt.add ls vec start dim

/-- The gradInput the streaming backward kernel writes at slice position p:
head and tail chunks take the element-wise path, interior chunks the vector
path; both compute the same arithmetic on each element. -/
def streamBwdOut (logSM : Bool) (E : Flt → Flt) (o g : ℕ → Flt)
    (ls vec start dim : ℕ) (p : ℕ) : Flt :=
  let S := streamBwdSum logSM o g ls vec start dim
  let c := (p + start) / vec
  if (0 < start ∧ c = 0) ∨ dim + start - c * vec < vec then
    (if logSM then (g p).sub ((E (o p)).mul S) else (o p).mul ((g p).sub S))
  else
    (if logSM then (g p).sub ((E (o p)).mul S) else (o p).mul ((g p).sub S))

/-!  The spatial backward kernel (SpatialSoftmaxBackwardKernelFunctor), for
one (outer index, inner offset) slice: block_row workers stride over the
reduced dimension accumulating the gradient sum from zero, the partials are
combined by group_reduce_spatial with plus, and the write-back applies the
backward formula along the same stride. -/

/-- One contribution to the spatial backward gradient sum: gradOutput alone
for log-softmax, gradOutput times output otherwise (the source multiplies in
this order). -/
def spatialBwdTerm (logSM : Bool) (o g : ℕ → Flt) (i : ℕ) : Flt :=
  if logSM then g i else (g i).mul (o i)

/-- The per-worker gradient-sum partial of the spatial backward kernel,
accumulated from zero over the stride class of row r. -/
def spatialBwdWorkerSum (logSM : Bool) (o g : ℕ → Flt) (r br dim : ℕ) :
    Flt :=
  (List.range (stridedCount r br dim)).foldl
    (fun a k => a.add (spatialBwdTerm logSM o g (r + k * br))) (Flt.fin 0)

/-- The combined gradient sum of one spatial slice. -/
def spatialBwdSum (logSM : Bool) (o g : ℕ → Flt) (br dim : ℕ) : Flt :=
  spatialCombine Flt.add
    (fun r => spatialBwdWorkerSum logSM o g r br dim) br

/-- The gradInput the spatial backward kernel writes at row i of its slice. -/
def spatialBwdOut (logSM : Bool) (E : Flt → Flt) (o g : ℕ → Flt)
    (br dim : ℕ) (i : ℕ) : Flt :=
  let S := spatialBwdSum logSM o g br dim
  if logSM then (g i).sub ((E (o i)).mul S)
  else (o i).mul ((g i).sub S)

lemma dispatchBwdWorkerSum_eq (logSM isMasked : Bool) (o g : ℕ → Flt)
    (m : ℕ → Bool) (vec ls NUM dim wid : ℕ) (tv : ℕ → ℚ)
    (hvec : 0 < vec) (hls : 0 < ls) (hvd : vec ∣ dim)
    (hNUM : stridedCount wid ls (dim / vec) ≤ NUM)
    (ht : ∀ q, q < dim →
      dispatchBwdTerm logSM isMasked o g m q = Flt.fin (tv q)) :
    dispatchBwdWorkerSum logSM isMasked o g m vec ls NUM dim wid =
      Flt.fin ((((stridedList wid ls (dim / vec)).flatMap
        (chunkLanes vec)).map tv).sum) := by
  obtain ⟨t, hdim⟩ := hvd
  have hdv : dim / vec = t := by
    rw [hdim, Nat.mul_div_cancel_left t hvec]
  have hiff : ∀ k, (wid + k * ls) * vec < dim ↔
      k < stridedCount wid ls (dim / vec) := by
    intro k
    rw [stridedCount_lt_iff wid ls (dim / vec) k hls, hdv, hdim]
    constructor
    · intro h
      by_contra hc
      push_neg at hc
      have h2 : t * vec ≤ (wid + k * ls) * vec := Nat.mul_le_mul_right vec hc
      rw [Nat.mul_comm t vec] at h2
      omega
    · intro h
      calc (wid + k * ls) * vec < t * vec :=
            (Nat.mul_lt_mul_right hvec).mpr h
        _ = vec * t := Nat.mul_comm t vec
  rw [dispatchBwdWorkerSum,
    foldl_range_guard
      (fun a k =>
        (List.range vec).foldl
          (fun b j => b.add
            (dispatchBwdTerm logSM isMasked o g m ((wid + k * ls) * vec + j)))
          a)
      (fun k => (wid + k * ls) * vec < dim) NUM
      (stridedCount wid ls (dim / vec)) hNUM hiff (Flt.fin 0),
    foldl_inner_fin _
      (fun k => (((chunkLanes vec (wid + k * ls)).map tv).sum))
      (List.range (stridedCount wid ls (dim / vec))) 0 ?_]
  · rw [zero_add, stridedList, flatMap_map_list, sum_map_flatMap]
  · intro k hk q
    have hchunk : (wid + k * ls) * vec < dim :=
      (hiff k).mpr (List.mem_range.mp hk)
    rw [foldl_add_fin
      (fun j => dispatchBwdTerm logSM isMasked o g m ((wid + k * ls) * vec + j))
      (fun j => tv ((wid + k * ls) * vec + j)) (List.range vec) q ?_]
    · simp only [chunkLanes, List.map_map]
      rfl
    · intro j hj
      exact ht _ (chunk_pos_lt (wid + k * ls) j vec dim ⟨t, hdim⟩
        (List.mem_range.mp hj) hchunk)

lemma dispatchBwdSum_eq (logSM isMasked : Bool) (o g : ℕ → Flt)
    (m : ℕ → Bool) (vec ls NUM dim : ℕ) (tv : ℕ → ℚ)
    (hvec : 0 < vec) (hls : 0 < ls) (hvd : vec ∣ dim)
    (hcov : dim ≤ vec * ls * NUM)
    (ht : ∀ q, q < dim →
      dispatchBwdTerm logSM isMasked o g m q = Flt.fin (tv q)) :
    dispatchBwdSum logSM isMasked o g m vec ls NUM dim =
      Flt.fin (∑ q in Finset.range dim, tv q) := by
  have hNUM : ∀ wid, stridedCount wid ls (dim / vec) ≤ NUM := by
    intro wid
    by_contra hc
    push_neg at hc
    have h2 := (stridedCount_lt_iff wid ls (dim / vec) NUM hls).mp hc
    have h3 : dim / vec * vec = dim := Nat.div_mul_cancel hvd
    have h4 : (wid + NUM * ls) * vec < dim / vec * vec :=
      (Nat.mul_lt_mul_right hvec).mpr h2
    have h5 : vec * ls * NUM = (NUM * ls) * vec := by ring
    rw [h5] at hcov
    have h6 : NUM * ls * vec ≤ (wid + NUM * ls) * vec :=
      Nat.mul_le_mul_right vec (by omega)
    omega
  rw [dispatchBwdSum,
    foldl_inner_fin _
      (fun wid => (((stridedList wid ls (dim / vec)).flatMap
        (chunkLanes vec)).map tv).sum)
      (List.range ls) 0 ?_]
  · rw [zero_add, ← sum_map_flatMap, ← flatMap_flatMap]
    have hcb : coveredBy
        (((List.range ls).flatMap
          (fun wid => stridedList wid ls (dim / vec))).flatMap
          (chunkLanes vec)) (dim / vec * vec) :=
      lanes_covers _ (dim / vec) vec hvec (strided_union_covers ls (dim / vec) hls)
    rw [Nat.div_mul_cancel hvd] at hcb
    exact congrArg Flt.fin (sum_of_coveredBy _ dim hcb tv)
  · intro wid _ q
    rw [dispatchBwdWorkerSum_eq logSM isMasked o g m vec ls NUM dim wid tv
      hvec hls hvd (hNUM wid) ht, fin_add_fin]

/-- The guarded streaming contribution at linear position P: the shifted
slice value inside the row, zero in the alignment padding. -/
def shiftGuard (tv : ℕ → ℚ) (start dim : ℕ) (P : ℕ) : ℚ :=
  if start ≤ P ∧ P - start < dim then tv (P - start) else 0

lemma streamWorkerFold_sum_eq (t : ℕ → Flt) (tv : ℕ → ℚ)
    (wid ls vec start dim : ℕ)
    (ht : ∀ p, p < dim → t p = Flt.fin (tv p)) :
    streamWorkerFold (fun a p => a.add (t p)) (Flt.fin 0) wid ls vec start dim
      = Flt.fin ((((stridedList wid ls (loopsEnd dim start vec)).flatMap
          (chunkLanes vec)).map (shiftGuard tv start dim)).sum) := by
  rw [streamWorkerFold,
    foldl_inner_fin _
      (fun k => (((chunkLanes vec (wid + k * ls)).map
        (shiftGuard tv start dim)).sum))
      (List.range (stridedCount wid ls (loopsEnd dim start vec))) 0 ?_]
  · rw [zero_add, stridedList, flatMap_map_list, sum_map_flatMap]
  · intro k _ q
    rw [foldl_guard_add_fin
      (fun j => t ((wid + k * ls) * vec + j - start))
      (fun j => tv ((wid + k * ls) * vec + j - start))
      (fun j => start ≤ (wid + k * ls) * vec + j ∧
        (wid + k * ls) * vec + j - start < dim)
      (List.range vec) q ?_]
    · simp only [chunkLanes, List.map_map]
      rfl
    · intro j _ hpj
      exact ht _ hpj.2

lemma streamGroupFold_sum_eq (t : ℕ → Flt) (tv : ℕ → ℚ)
    (ls vec start dim : ℕ) (hls : 0 < ls) (hvec : 0 < vec)
    (ht : ∀ p, p < dim → t p = Flt.fin (tv p)) :
    streamGroupFold (fun a p => a.add (t p)) (Flt.fin 0) Flt.add
      ls vec start dim = Flt.fin (∑ p in Finset.range dim, tv p) := by
  rw [streamGroupFold,
    foldl_inner_fin _
      (fun wid => (((stridedList wid ls (loopsEnd dim start vec)).flatMap
        (chunkLanes vec)).map (shiftGuard tv start dim)).sum)
      (List.range ls) 0 ?_]
  · rw [zero_add, ← sum_map_flatMap, ← flatMap_flatMap]
    have hcb : coveredBy
        (((List.range ls).flatMap
          (fun wid => stridedList wid ls (loopsEnd dim start vec))).flatMap
          (chunkLanes vec)) (loopsEnd dim start vec * vec) :=
      lanes_covers _ (loopsEnd dim start vec) vec hvec
        (strided_union_covers ls (loopsEnd dim start vec) hls)
    rw [sum_of_coveredBy _ (loopsEnd dim start vec * vec) hcb
      (shiftGuard tv start dim)]
    refine congrArg Flt.fin ?_
    have hW : start + dim ≤ loopsEnd dim start vec * vec := by
      have h1 := le_ceil_mul (dim + start) vec hvec
      rw [loopsEnd]
      omega
    exact guard_shift_sum tv start dim (loopsEnd dim start vec * vec) hW
  · intro wid _ q
    rw [streamWorkerFold_sum_eq t tv wid ls vec start dim ht, fin_add_fin]

lemma spatialBwdSum_eq (logSM : Bool) (o g : ℕ → Flt) (br dim : ℕ)
    (tv : ℕ → ℚ) (hbr : 0 < br)
    (ht : ∀ i, i < dim → spatialBwdTerm logSM o g i = Flt.fin (tv i)) :
    spatialBwdSum logSM o g br dim =
      Flt.fin (∑ i in Finset.range dim, tv i) := by
  have hw : ∀ r, spatialBwdWorkerSum logSM o g r br dim =
      Flt.fin (((stridedList r br dim).map tv).sum) := by
    intro r
    rw [spatialBwdWorkerSum,
      foldl_add_fin (fun k => spatialBwdTerm logSM o g (r + k * br))
        (fun k => tv (r + k * br))
        (List.range (stridedCount r br dim)) 0 ?_]
    · rw [zero_add, stridedList, List.map_map]
      rfl
    · intro k hk
      exact ht _
        ((stridedCount_lt_iff r br dim k hbr).mp (List.mem_range.mp hk))
  obtain ⟨m, rfl⟩ : ∃ m, br = m + 1 := ⟨br - 1, by omega⟩
  simp only [spatialBwdSum, spatialCombine]
  rw [hw 0,
    foldl_inner_fin _
      (fun r => ((stridedList (r + 1) (m + 1) dim).map tv).sum)
      (List.range (m + 1 - 1)) (((stridedList 0 (m + 1) dim).map tv).sum) ?_]
  · have hsum : ((List.range (m + 1)).map
        (fun r => ((stridedList r (m + 1) dim).map tv).sum)).sum =
        ∑ i in Finset.range dim, tv i := by
      rw [← sum_map_flatMap]
      exact sum_of_coveredBy _ dim (strided_union_covers (m + 1) dim hbr) tv
    rw [List.range_succ_eq_map, List.map_cons, List.sum_cons, List.map_map]
      at hsum
    exact congrArg Flt.fin hsum
  · intro r _ q
    rw [hw (r + 1)]
    exact fin_add_fin q _

/-- The streaming backward write-back collapses to one formula: the head/tail
and interior branches compute the same arithmetic. -/
lemma streamBwdOut_eq (logSM : Bool) (E : Flt → Flt) (o g : ℕ → Flt)
    (ls vec start dim p : ℕ) :
    streamBwdOut logSM E o g ls vec start dim p =
      if logSM then
        (g p).sub ((E (o p)).mul (streamBwdSum logSM o g ls vec start dim))
      else (o p).mul
        ((g p).sub (streamBwdSum logSM o g ls vec start dim)) := by
  rw [streamBwdOut]
  exact ite_self _

/-- The backward gradient formula of the specification: for softmax,
output * (gradOutput - sum(output * gradOutput)); for log-softmax,
gradOutput - exp(output) * sum(gradOutput). -/
def bwdFormula (logSM : Bool) (ov gv ev : ℕ → ℚ) (dim p : ℕ) : ℚ :=
  if logSM then gv p - ev p * ∑ q in Finset.range dim, gv q
  else ov p * (gv p - ∑ q in Finset.range dim, ov q * gv q)

/-- C3: in every backward dispatch tier — register-resident (unmasked),
streaming, spatial — with finite output and gradOutput values on the slice
and the exponential mapping those outputs to finite values, the gradInput
written at every slice position equals
output * (gradOutput - sum(output * gradOutput)) for softmax and
gradOutput - exp(output) * sum(gradOutput) for log-softmax, the sum taken
over the reduced axis. -/
theorem softmax_backward_formula_all_tiers
    (logSM : Bool) (E : Flt → Flt) (o g : ℕ → Flt) (m : ℕ → Bool)
    (ov gv ev : ℕ → ℚ) (vec ls NUM dim start br : ℕ)
    (hvec : 0 < vec) (hls : 0 < ls) (hbr : 0 < br)
    (hvd : vec ∣ dim) (hcov : dim ≤ vec * ls * NUM)
    (ho : ∀ q, q < dim → o q = Flt.fin (ov q))
    (hg : ∀ q, q < dim → g q = Flt.fin (gv q))
    (hE : ∀ q, q < dim → E (Flt.fin (ov q)) = Flt.fin (ev q)) :
    ∀ p, p < dim →
      dispatchBwdOut logSM false E o g m vec ls NUM dim p =
        Flt.fin (bwdFormula logSM ov gv ev dim p) ∧
      streamBwdOut logSM E o g ls vec start dim p =
        Flt.fin (bwdFormula logSM ov gv ev dim p) ∧
      spatialBwdOut logSM E o g br dim p =
        Flt.fin (bwdFormula logSM ov gv ev dim p) := by
  intro p hp
  cases logSM with
  | false =>
    have hTd : ∀ q, q < dim → dispatchBwdTerm false false o g m q =
        Flt.fin (ov q * gv q) := by
      intro q hq
      show (o q).mul (g q) = _
      rw [ho q hq, hg q hq, fin_mul_fin]
    have hTs : ∀ q, q < dim → streamBwdTerm false o g q =
        Flt.fin (ov q * gv q) := by
      intro q hq
      show (o q).mul (g q) = _
      rw [ho q hq, hg q hq, fin_mul_fin]
    have hTsp : ∀ q, q < dim → spatialBwdTerm false o g q =
        Flt.fin (gv q * ov q) := by
      intro q hq
      show (g q).mul (o q) = _
      rw [ho q hq, hg q hq, fin_mul_fin]
    have hSd := dispatchBwdSum_eq false false o g m vec ls NUM dim
      (fun q => ov q * gv q) hvec hls hvd hcov hTd
    have hSs := streamGroupFold_sum_eq (streamBwdTerm false o g)
      (fun q => ov q * gv q) ls vec start dim hls hvec hTs
    have hSsp := spatialBwdSum_eq false o g br dim
      (fun i => gv i * ov i) hbr hTsp
    have hswap : (∑ i in Finset.range dim, gv i * ov i) =
        ∑ i in Finset.range dim, ov i * gv i :=
      Finset.sum_congr rfl (fun i _ => mul_comm _ _)
    rw [hswap] at hSsp
    refine ⟨?_, ?_, ?_⟩
    · show (o p).mul
        ((g p).sub (dispatchBwdSum false false o g m vec ls NUM dim)) = _
      rw [hSd, ho p hp, hg p hp, fin_sub_fin, fin_mul_fin]
      rfl
    · rw [streamBwdOut_eq]
      show (o p).mul ((g p).sub (streamBwdSum false o g ls vec start dim)) = _
      rw [streamBwdSum, hSs, ho p hp, hg p hp, fin_sub_fin, fin_mul_fin]
      rfl
    · show (o p).mul ((g p).sub (spatialBwdSum false o g br dim)) = _
      rw [hSsp, ho p hp, hg p hp, fin_sub_fin, fin_mul_fin]
      rfl
  | true =>
    have hTd : ∀ q, q < dim → dispatchBwdTerm true false o g m q =
        Flt.fin (gv q) := by
      intro q hq
      show g q = _
      exact hg q hq
    have hTs : ∀ q, q < dim → streamBwdTerm true o g q = Flt.fin (gv q) := by
      intro q hq
      show g q = _
      exact hg q hq
    have hTsp : ∀ q, q < dim → spatialBwdTerm true o g q = Flt.fin (gv q) := by
      intro q hq
      show g q = _
      exact hg q hq
    have hSd := dispatchBwdSum_eq true false o g m vec ls NUM dim gv
      hvec hls hvd hcov hTd
    have hSs := streamGroupFold_sum_eq (streamBwdTerm true o g) gv
      ls vec start dim hls hvec hTs
    have hSsp := spatialBwdSum_eq true o g br dim gv hbr hTsp
    refine ⟨?_, ?_, ?_⟩
    · show (g p).sub
        ((E (o p)).mul (dispatchBwdSum true false o g m vec ls NUM dim)) = _
      rw [hSd, ho p hp, hg p hp, hE p hp, fin_mul_fin, fin_sub_fin]
      rfl
    · rw [streamBwdOut_eq]
      show (g p).sub
        ((E (o p)).mul (streamBwdSum true o g ls vec start dim)) = _
      rw [streamBwdSum, hSs, ho p hp, hg p hp, hE p hp, fin_mul_fin,
        fin_sub_fin]
      rfl
    · show (g p).sub ((E (o p)).mul (spatialBwdSum true o g br dim)) = _
      rw [hSsp, ho p hp, hg p hp, hE p hp, fin_mul_fin, fin_sub_fin]
      rfl

/-- Witness for C3: every hypothesis holds and the backward formula is
produced in all three tiers at the one-element slice with unit output and
gradient. -/
theorem softmax_backward_formula_all_tiers_witness :
    (0 : ℕ) < 1 ∧ (1 : ℕ) ∣ 1 ∧ (1 : ℕ) ≤ 1 * 1 * 1 ∧
    (dispatchBwdOut false false (fun a => a) (fun _ => Flt.fin 1)
        (fun _ => Flt.fin 1) (fun _ => false) 1 1 1 1 0 =
      Flt.fin (bwdFormula false (fun _ => 1) (fun _ => 1) (fun _ => 1) 1 0) ∧
     streamBwdOut false (fun a => a) (fun _ => Flt.fin 1) (fun _ => Flt.fin 1)
        1 1 0 1 0 =
      Flt.fin (bwdFormula false (fun _ => 1) (fun _ => 1) (fun _ => 1) 1 0) ∧
     spatialBwdOut false (fun a => a) (fun _ => Flt.fin 1) (fun _ => Flt.fin 1)
        1 1 0 =
      Flt.fin (bwdFormula false (fun _ => 1) (fun _ => 1) (fun _ => 1) 1 0)) :=
  ⟨by decide, by decide, by decide,
   softmax_backward_formula_all_tiers false (fun a => a) (fun _ => Flt.fin 1)
     (fun _ => Flt.fin 1) (fun _ => false) (fun _ => 1) (fun _ => 1)
     (fun _ => 1) 1 1 1 1 0 1 (by decide) (by decide) (by decide)
     (by decide) (by decide) (fun _ _ => rfl) (fun _ _ => rfl)
     (fun _ _ => rfl) 0 (by decide)⟩

end IpexXpuVerify
